import Mathlib

/-!
Directory tree builder and renderer of hw1_tree (`main.go`).

A shallow embedding of `main.go` and the properties of its tree builder
(`buildTreeRecursively`, `removeFiles`) and renderer (`tree.String`,
`treeElement.String`).

Modelling conventions.

* Go strings are Lean `String`s. Go compares strings byte-wise; on UTF-8 text
  that is the lexicographic order of the code points, which is the order of the
  character lists used by `less`.
* `os.FileInfo` is the record of the three methods the program calls.
* A `*treeElement` is `Option treeElement`: `nil` is `none`, and a pointer shows
  the element it points to. The builder takes `&treeEl` before the children of
  `treeEl` exist, and no function ever reads `nestedElements` through a parent
  pointer, so the pointee is the element as it is when the pointer is taken.
* The directory walk recurses on what the listing capability returns, so
  `buildTreeRecursively` carries a recursion budget: `none` means the budget ran
  out, `some r` is the pair `(tree, error)` that the Go function returns.
-/

namespace HwTree

/-! ## Data model -/

/-- The part of `os.FileInfo` the program reads: `Name()`, `IsDir()`, `Size()` (an `int64`). -/
structure FileInfo where
  name : String
  isDir : Bool
  size : Int
deriving DecidableEq, Repr

/-- Go `error` values: an error of a collaborator, or one made by `fmt.Errorf` with `%w`,
which carries its formatted message and the wrapped cause. -/
inductive GoError where
  | base (msg : String)
  | wrap (msg : String) (cause : GoError)
deriving DecidableEq, Repr

/-- The `treeElement` struct. `tree` is `[]treeElement`, here `List treeElement`. -/
inductive treeElement where
  | mk (parentElement : Option treeElement) (fileInfo : FileInfo) (isLast : Bool)
      (nestedElements : List treeElement)

/-- The `tree` type, `[]treeElement`. -/
abbrev tree := List treeElement

namespace treeElement

/-- Field `parentElement`. -/
def parentElement : treeElement → Option treeElement
  | mk p _ _ _ => p

/-- Field `fileInfo`. -/
def fileInfo : treeElement → FileInfo
  | mk _ f _ _ => f

/-- Field `isLast`. -/
def isLast : treeElement → Bool
  | mk _ _ l _ => l

/-- Field `nestedElements`. -/
def nestedElements : treeElement → tree
  | mk _ _ _ n => n

/-! ## Renderer: walking the parent chain -/

/-- Method `getNestingLevelRecursively`: walks the parent chain, adding one per parent. -/
def getNestingLevelRecursively : treeElement → Nat → Nat
  | mk none _ _ _, level => level
  | mk (some p) _ _ _, level => getNestingLevelRecursively p (level + 1)

/-- Method `getNestingLevel`: the recursion started at level 0. -/
def getNestingLevel (el : treeElement) : Nat :=
  el.getNestingLevelRecursively 0

/-- Method `getNumberOfNotLastParentsRecursively`: walks the parent chain, adding one for
every parent whose `isLast` is false. -/
def getNumberOfNotLastParentsRecursively : treeElement → Nat → Nat
  | mk none _ _ _, num => num
  | mk (some p) _ _ _, num =>
    getNumberOfNotLastParentsRecursively p (if !p.isLast then num + 1 else num)

/-- Method `getNumberOfNotLastParents`: the recursion started at 0. -/
def getNumberOfNotLastParents (el : treeElement) : Nat :=
  el.getNumberOfNotLastParentsRecursively 0

/-- The ancestor chain of a node read off its parent pointers, outermost ancestor first,
immediate parent last. -/
def ancestors : treeElement → List treeElement
  | mk none _ _ _ => []
  | mk (some p) _ _ _ => ancestors p ++ [p]

end treeElement

/-! ## Renderer: one line per node -/

/-- The indentation loop of `treeElement.String`:
`for i := 0; i < nestingLevel; i++ { if i < numberOfNotLastParents { result += "│" }; result += "\t" }`,
run from the loop counter `i` on the string built so far. The first argument is the number
of iterations left (`nestingLevel - i`). -/
def indentLoop (numberOfNotLastParents : Nat) : Nat → Nat → String → String
  | 0, _, result => result
  | n + 1, i, result =>
    indentLoop numberOfNotLastParents n (i + 1)
      ((if i < numberOfNotLastParents then result ++ "│" else result) ++ "\t")

/-- The size annotation of `treeElement.String`: `"(empty)"` for size 0, else
`fmt.Sprintf("(%db)", size)`. -/
def sizeText (size : Int) : String :=
  if size = 0 then "(empty)" else "(" ++ toString size ++ "b)"

/-- The part of `treeElement.String` before its final loop over `nestedElements`: the
value of `result` after `result += "\n"`, the node's own line. -/
def treeElement.line (el : treeElement) : String :=
  let result := ""
  let nestingLevel := el.getNestingLevel
  let numberOfNotLastParents := el.getNumberOfNotLastParents
  let result := indentLoop numberOfNotLastParents nestingLevel 0 result
  let result := if el.isLast then result ++ "└───" else result ++ "├───"
  let result := result ++ el.fileInfo.name
  let result := if !el.fileInfo.isDir then result ++ " " ++ sizeText el.fileInfo.size else result
  result ++ "\n"

mutual
/-- Method `treeElement.String`: the own line of the node, then the loop
`for i := range el.nestedElements { result += el.nestedElements[i].String() }`. -/
def treeElement.String : treeElement → String
  | .mk p f l nested => appendStrings nested (treeElement.line (.mk p f l nested))
/-- The loop `for i := range t { result += t[i].String() }` on the elements still to
visit and the string built so far. -/
def appendStrings : List treeElement → String → String
  | [], result => result
  | el :: rest, result => appendStrings rest (result ++ el.String)
end

/-- Method `tree.String`: the loop over the elements, started on the empty string. -/
def tree.String (t : tree) : String :=
  appendStrings t ""

/-! ## Builder -/

/-- The two capabilities the builder consumes: `ioutil.ReadDir` (a listing or an error)
and `filepath.Join`. -/
structure Env where
  readDir : String → Except GoError (List FileInfo)
  join : String → String → String

/-- Method `err.Error()`: the message of an error. -/
def GoError.Error : GoError → String
  | .base msg => msg
  | .wrap msg _ => msg

/-- The loop of `removeFiles`:
`for i := range files { if files[i].IsDir() { result = append(result, files[i]) } }`. -/
def removeFilesLoop : List FileInfo → List FileInfo → List FileInfo
  | [], result => result
  | file :: rest, result => removeFilesLoop rest (if file.isDir then result ++ [file] else result)

/-- Function `removeFiles`: the loop started on the empty result. -/
def removeFiles (files : List FileInfo) : List FileInfo :=
  removeFilesLoop files []

/-- The comparison handed to `sort.Slice`: `files[i].Name() < files[j].Name()`. -/
def less (a b : FileInfo) : Prop :=
  a.name.data < b.name.data

instance less.decidable : DecidableRel less :=
  fun a b => inferInstanceAs (Decidable (a.name.data < b.name.data))

/-- Call `sort.Slice(files, less)` of the standard library, as an insertion sort that puts an
entry before the first one that is not `less` than it. Every sorting procedure returns this
same list when the names are pairwise distinct. -/
def sortSlice (files : List FileInfo) : List FileInfo :=
  files.insertionSort (fun a b => ¬ less b a)

/-- The `for i := range files` loop of `buildTreeRecursively`, on the entries still to
visit, the loop counter `i` and `resultTree`; `len` is `len(files)` and `recurse` is the
recursive call `b.buildTreeRecursively`. -/
def buildLoop (recurse : String → Option treeElement → Option (tree × Option GoError))
    (join : String → String → String) (fullPath : String) (parentElement : Option treeElement)
    (len : Nat) : List FileInfo → Nat → tree → Option (tree × Option GoError)
  | [], _, resultTree => some (resultTree, none)
  | file :: rest, i, resultTree =>
    let last : Bool := decide ((i : Int) = (len : Int) - 1)
    if file.isDir then
      match recurse (join fullPath file.name) (some (.mk parentElement file last [])) with
      | none => none
      | some (_, some err) => some ([], some err)
      | some (nested, none) =>
        buildLoop recurse join fullPath parentElement len rest (i + 1)
          (resultTree ++ [.mk parentElement file last nested])
    else
      buildLoop recurse join fullPath parentElement len rest (i + 1)
        (resultTree ++ [.mk parentElement file last []])

/-- The error `buildTreeRecursively` makes of a failed listing:
`fmt.Errorf("failed to read dir from fullPath \x27%s\x27: %w", fullPath, err)`. -/
def readDirError (fullPath : String) (err : GoError) : GoError :=
  .wrap ("failed to read dir from fullPath \x27" ++ fullPath ++ "\x27: " ++ err.Error) err

/-- Method `buildTreeRecursively`, with the recursion budget as first argument. -/
def buildTreeRecursively (env : Env) (addFiles : Bool) :
    Nat → String → Option treeElement → Option (tree × Option GoError)
  | 0, _, _ => none
  | fuel + 1, fullPath, parentElement =>
    match env.readDir fullPath with
    | .error err => some ([], some (readDirError fullPath err))
    | .ok files =>
      let files := if !addFiles then removeFiles files else files
      let files := sortSlice files
      buildLoop (buildTreeRecursively env addFiles fuel) env.join fullPath parentElement
        files.length files 0 []

/-- The `treeBuilder` struct. -/
structure treeBuilder where
  addFiles : Bool
  rootPath : String

/-- Function `newTreeBuilder`. -/
def newTreeBuilder (rootPath : String) (addFiles : Bool) : treeBuilder :=
  { addFiles := addFiles, rootPath := rootPath }

/-- Method `buildTree`: the recursion started at the root path with a nil parent. -/
def treeBuilder.buildTree (env : Env) (fuel : Nat) (b : treeBuilder) :
    Option (tree × Option GoError) :=
  buildTreeRecursively env b.addFiles fuel b.rootPath none

/-- An `io.Writer` with its state: `write` returns the state after the call and the
error of the call. -/
structure Writer (σ : Type) where
  write : σ → String → σ × Option GoError

/-- Function `dirTree`: the writer state after the call and the returned error. -/
def dirTree {σ : Type} (env : Env) (fuel : Nat) (w : Writer σ) (out : σ) (path : String)
    (files : Bool) : Option (σ × Option GoError) :=
  let builder := newTreeBuilder path files
  match builder.buildTree env fuel with
  | none => none
  | some (_, some err) => some (out, some err)
  | some (resultTree, none) =>
    let treeBytes := resultTree.String
    match w.write out treeBytes with
    | (out, some err) =>
      some (out, some (.wrap ("failed to write tree bytes to the output: " ++ err.Error) err))
    | (out, none) => some (out, none)

/-! ## Observations on trees and on rendered text -/

mutual
/-- The nodes of the subtree of a node in depth-first pre-order: the node, then the nodes of
its `nestedElements`. -/
def treeElement.nodes : treeElement → List treeElement
  | .mk p f l nested => .mk p f l nested :: nodesOf nested
/-- The nodes of a tree at every depth, in depth-first pre-order. -/
def nodesOf : List treeElement → List treeElement
  | [] => []
  | el :: rest => el.nodes ++ nodesOf rest
end

mutual
/-- The nodes of the subtree of a node, each with the list of the nodes that enclose it
in the tree (outermost first); `encl` is what encloses the node itself. -/
def treeElement.located : treeElement → List treeElement → List (List treeElement × treeElement)
  | .mk p f l nested, encl =>
    (encl, .mk p f l nested) :: locatedIn nested (encl ++ [.mk p f l nested])
/-- The nodes of a tree at every depth, each with the list of the nodes that enclose it. -/
def locatedIn : List treeElement → List treeElement → List (List treeElement × treeElement)
  | [], _ => []
  | el :: rest, encl => el.located encl ++ locatedIn rest encl
end

/-- The sibling groups of a tree: the tree itself and the `nestedElements` of every node
at every depth. -/
def groupsOf (t : tree) : List tree :=
  t :: (nodesOf t).map treeElement.nestedElements

/-- The text of a rendered line before its branch glyph. -/
def indentOf (s : String) : String :=
  ⟨s.data.takeWhile (fun c => c != '├' && c != '└')⟩

/-- Splits a list of characters after every tab. -/
def slotsOfChars : List Char → List (List Char)
  | [] => []
  | c :: cs =>
    if c = '\t' then [c] :: slotsOfChars cs
    else
      match slotsOfChars cs with
      | [] => [[c]]
      | s :: ss => (c :: s) :: ss

/-- The indentation slots of an indentation text: its pieces, each ending in a tab. -/
def slots (s : String) : List String :=
  (slotsOfChars s.data).map String.mk

/-- Whether indentation slot `i` of a rendered line holds a vertical bar. -/
def barInSlot (line : String) (i : Nat) : Bool :=
  decide ('│' ∈ ((slots (indentOf line)).getD i "").data)

/-- The number of line breaks in a text. -/
def lineBreaks (s : String) : Nat :=
  s.data.count '\n'

/-- The indentation text for a node with `d` ancestors of which `k` are not last siblings:
`k` slots that hold a bar, then `d - k` bare tabs. -/
def indentText (d k : Nat) : String :=
  String.join (List.replicate k "│\t" ++ List.replicate (d - k) "\t")

/-- The branch glyph of a node. -/
def branchGlyph (el : treeElement) : String :=
  if el.isLast then "└───" else "├───"

/-- The annotation that follows the name of a node: nothing for a directory, a space and
the size text for any other entry. -/
def sizeSuffix (el : treeElement) : String :=
  if el.fileInfo.isDir then "" else " " ++ sizeText el.fileInfo.size

/-! ## One level of a successful build -/

/-- The nodes that the loop of `buildTreeRecursively` makes from the entries `files`, the
first of them at loop counter `i`, when every recursive call succeeds: a node per entry, in
order, childless for a non-directory and with children `nested` related by `P` to the joined
path and to the pointer to the node for a directory. -/
inductive Level (P : String → Option treeElement → tree → Prop)
    (join : String → String → String) (fullPath : String) (parentElement : Option treeElement)
    (len : Nat) : List FileInfo → Nat → tree → Prop where
  | nil (i : Nat) : Level P join fullPath parentElement len [] i []
  | file (f : FileInfo) (rest : List FileInfo) (i : Nat) (els : tree)
      (hf : f.isDir = false)
      (hrest : Level P join fullPath parentElement len rest (i + 1) els) :
      Level P join fullPath parentElement len (f :: rest) i
        (.mk parentElement f (decide ((i : Int) = (len : Int) - 1)) [] :: els)
  | dir (f : FileInfo) (rest : List FileInfo) (i : Nat) (els nested : tree)
      (hf : f.isDir = true)
      (hnested : P (join fullPath f.name)
        (some (.mk parentElement f (decide ((i : Int) = (len : Int) - 1)) [])) nested)
      (hrest : Level P join fullPath parentElement len rest (i + 1) els) :
      Level P join fullPath parentElement len (f :: rest) i
        (.mk parentElement f (decide ((i : Int) = (len : Int) - 1)) nested :: els)

/-- The entries a directory listing leaves to the loop of `buildTreeRecursively`:
filtered by `removeFiles` unless files are added, then sorted. -/
def listed (addFiles : Bool) (files : List FileInfo) : List FileInfo :=
  sortSlice (if !addFiles then removeFiles files else files)

/-- The nesting level of the nodes built under a parent pointer. -/
def levelOf : Option treeElement → Nat
  | none => 0
  | some p => p.getNestingLevel + 1

/-! ## Sample filesystems -/

/-- The error of listing a path that does not exist. -/
def notExist : GoError :=
  .base "no such file or directory"

/-- A filesystem whose root "." holds the single directory "a"; "a" holds the directories
"c" and "b" (listed in that order); "b" holds the 3-byte file "x"; "c" is empty. -/
def nestedEnv : Env where
  readDir := fun p =>
    if p = "." then .ok [⟨"a", true, 4096⟩]
    else if p = "./a" then .ok [⟨"c", true, 4096⟩, ⟨"b", true, 4096⟩]
    else if p = "./a/b" then .ok [⟨"x", false, 3⟩]
    else if p = "./a/c" then .ok []
    else .error notExist
  join := fun a b => a ++ "/" ++ b

/-- What a pointer to the node of "a" in `nestedEnv` shows. -/
def nestedA : treeElement :=
  .mk none ⟨"a", true, 4096⟩ true []

/-- What a pointer to the node of "b" in `nestedEnv` shows. -/
def nestedB : treeElement :=
  .mk (some nestedA) ⟨"b", true, 4096⟩ false []

/-- The node of the file "x" in `nestedEnv`. -/
def nestedX : treeElement :=
  .mk (some nestedB) ⟨"x", false, 3⟩ true []

/-- The tree of `nestedEnv` with files. -/
def nestedTree : tree :=
  [.mk none ⟨"a", true, 4096⟩ true
    [.mk (some nestedA) ⟨"b", true, 4096⟩ false [nestedX],
     .mk (some nestedA) ⟨"c", true, 4096⟩ true []]]

/-- The filesystem of the scenarios B and C: the root "." holds the 5-byte file "b.txt" and
the empty directory "a" (listed in that order). -/
def scenarioEnv : Env where
  readDir := fun p =>
    if p = "." then .ok [⟨"b.txt", false, 5⟩, ⟨"a", true, 4096⟩]
    else if p = "./a" then .ok []
    else .error notExist
  join := fun a b => a ++ "/" ++ b

/-- The tree of `scenarioEnv` without files. -/
def scenarioDirs : tree :=
  [.mk none ⟨"a", true, 4096⟩ true []]

/-! ## The directories of a walk -/

/-- The directories under a path: the path itself, and every directory under the joined
path of a directory entry of its listing. `Reached env root p` says that `p` is one of the
directories under `root`. -/
inductive Reached (env : Env) : String → String → Prop where
  | here (p : String) : Reached env p p
  | inside (p : String) (files : List FileInfo) (f : FileInfo) (q : String)
      (hread : env.readDir p = .ok files) (hf : f ∈ files) (hdir : f.isDir = true)
      (hq : Reached env (env.join p f.name) q) : Reached env p q

/-- Whether the directories under a path nest less than `n` deep: the path fails to list or
lists entries whose directories nest less than `n - 1` deep. -/
def withinDepth (env : Env) : Nat → String → Bool
  | 0, _ => false
  | n + 1, p =>
    match env.readDir p with
    | .error _ => true
    | .ok files => files.all (fun f => !f.isDir || withinDepth env n (env.join p f.name))

/-- The two outcomes of a walk from `path`: a tree and no error, when every directory
under `path` lists; or no tree and the error made of the failed listing of a directory
under `path`. -/
def Outcome (env : Env) (path : String) (r : Option (tree × Option GoError)) : Prop :=
  (∃ t, r = some (t, none) ∧ ∀ p, Reached env path p → ∃ files, env.readDir p = .ok files) ∨
  (∃ p cause, r = some ([], some (readDirError p cause)) ∧ Reached env path p ∧
    env.readDir p = .error cause)

/-! ## Output sink and entry count -/

/-- A writer that records every payload it is handed and answers with the error `fail`. -/
def recorder (fail : Option GoError) : Writer (List String) where
  write := fun log payload => (log ++ [payload], fail)

/-- The number of entries present under a path, summed recursively over its directories:
the entries of the listing (all of them when files are added, the directories otherwise)
plus the entries under every directory of the listing. The first argument bounds the
depth of the sum. -/
def countEntries (env : Env) (addFiles : Bool) : Nat → String → Nat
  | 0, _ => 0
  | depth + 1, path =>
    match env.readDir path with
    | .error _ => 0
    | .ok files =>
      (if addFiles then files else files.filter (fun f => f.isDir)).length
        + ((files.filter (fun f => f.isDir)).map
            (fun f => countEntries env addFiles depth (env.join path f.name))).sum

/-! ## Scenarios C and D -/

/-- The tree of `scenarioEnv` with files. -/
def scenarioAll : tree :=
  [.mk none ⟨"a", true, 4096⟩ false [], .mk none ⟨"b.txt", false, 5⟩ true []]

/-- The filesystem of scenario D: the root "." holds the directories "a" and "b", listed in
this order when `swapped` is false and in the other order when it is true; "a" holds the
0-byte file "empty.txt"; "b" is empty. -/
def scenarioD (swapped : Bool) : Env where
  readDir := fun p =>
    if p = "." then
      .ok (if swapped then [⟨"b", true, 4096⟩, ⟨"a", true, 4096⟩]
        else [⟨"a", true, 4096⟩, ⟨"b", true, 4096⟩])
    else if p = "./a" then .ok [⟨"empty.txt", false, 0⟩]
    else if p = "./b" then .ok []
    else .error notExist
  join := fun a b => a ++ "/" ++ b

/-! ## The per-column rule -/

/-- The indentation slot that the per-column rule gives an ancestor: a bar and a tab when the
ancestor is not a last sibling, a bare tab when it is. -/
def columnSlot (last : Bool) : List Char :=
  if last then ['\t'] else ['│', '\t']

/-- The per-column prefix of a node: for each ancestor of its chain, outermost first, the
slot "│\t" if that ancestor is not a last sibling and "\t" if it is. -/
def perColumnPrefix (el : treeElement) : String :=
  String.join (el.ancestors.map (fun a => if a.isLast then "\t" else "│\t"))

/-! ## Parent pointers and paths -/

/-- What a pointer to a node of the tree shows: its parent pointer, its entry and its
`isLast` flag, as they were when the builder took the pointer. -/
def pointerTo (p : treeElement) : treeElement :=
  .mk p.parentElement p.fileInfo p.isLast []

/-- The parent chain that starts at a parent pointer, outermost first. -/
def chainOf : Option treeElement → List treeElement
  | none => []
  | some p => p.ancestors ++ [p]

mutual
/-- The nodes of the subtree of a node, each with the path of the directory whose listing
holds its entry; `dir` is that path for the node itself, and the children of a node lie in
the directory at the joined path of `dir` and the name of the node. -/
def treeElement.withPaths (join : String → String → String) :
    treeElement → String → List (String × treeElement)
  | .mk p f l nested, dir =>
    (dir, .mk p f l nested) :: withPathsIn join nested (join dir f.name)
/-- The nodes of a tree at every depth, each with the path of the directory whose listing
holds its entry. -/
def withPathsIn (join : String → String → String) :
    List treeElement → String → List (String × treeElement)
  | [], _ => []
  | el :: rest, dir => el.withPaths join dir ++ withPathsIn join rest dir
end

/-! ## Listing order -/

/-- What is compared of two results of `buildTreeRecursively`: whether the call returned,
the tree (its entries, flags, parent pointers and children), and whether an error came
with it. -/
def status (r : Option (tree × Option GoError)) : Option (tree × Bool) :=
  r.map (fun x => (x.1, x.2.isSome))

/-- Two listing capabilities that differ in the order of their listings only: the same
`filepath.Join`, and for every path either both fail, or both list, the one listing being a
permutation of the other with pairwise distinct names. -/
def SameUpToOrder (env1 env2 : Env) : Prop :=
  env1.join = env2.join ∧
  ∀ p, match env1.readDir p, env2.readDir p with
    | .ok l1, .ok l2 => l1.Perm l2 ∧ (l1.map (fun f => f.name)).Nodup
    | .error _, .error _ => True
    | _, _ => False

/-- The filesystem `nestedEnv` with the listing of "a" in the other order, and another
error for the paths that do not exist. -/
def nestedEnvSwapped : Env where
  readDir := fun p =>
    if p = "." then .ok [⟨"a", true, 4096⟩]
    else if p = "./a" then .ok [⟨"b", true, 4096⟩, ⟨"c", true, 4096⟩]
    else if p = "./a/b" then .ok [⟨"x", false, 3⟩]
    else if p = "./a/c" then .ok []
    else .error (.base "not a directory")
  join := fun a b => a ++ "/" ++ b

/-! ## The parent chain -/

theorem getNestingLevelRecursively_eq :
    ∀ (el : treeElement) (level : Nat),
      el.getNestingLevelRecursively level = level + el.ancestors.length
  | .mk none _ _ _, level => by simp [treeElement.getNestingLevelRecursively, treeElement.ancestors]
  | .mk (some p) _ _ _, level => by
    simp [treeElement.getNestingLevelRecursively, treeElement.ancestors,
      getNestingLevelRecursively_eq p (level + 1)]
    omega

theorem getNumberOfNotLastParentsRecursively_eq :
    ∀ (el : treeElement) (num : Nat),
      el.getNumberOfNotLastParentsRecursively num
        = num + el.ancestors.countP (fun a => !a.isLast)
  | .mk none _ _ _, num => by
    simp [treeElement.getNumberOfNotLastParentsRecursively, treeElement.ancestors]
  | .mk (some p) _ _ _, num => by
    rw [treeElement.getNumberOfNotLastParentsRecursively,
      getNumberOfNotLastParentsRecursively_eq p, treeElement.ancestors, List.countP_append]
    cases h : p.isLast
    · simp [List.countP_cons, h]; omega
    · simp [List.countP_cons, h]

theorem getNestingLevel_eq (el : treeElement) : el.getNestingLevel = el.ancestors.length := by
  simp [treeElement.getNestingLevel, getNestingLevelRecursively_eq]

theorem getNumberOfNotLastParents_eq (el : treeElement) :
    el.getNumberOfNotLastParents = el.ancestors.countP (fun a => !a.isLast) := by
  simp [treeElement.getNumberOfNotLastParents, getNumberOfNotLastParentsRecursively_eq]

theorem notLast_le_level (el : treeElement) :
    el.getNumberOfNotLastParents ≤ el.getNestingLevel := by
  rw [getNestingLevel_eq, getNumberOfNotLastParents_eq]
  exact List.countP_le_length _

/-! ## The rendered line -/

theorem indentLoop_data (k : Nat) : ∀ (n i : Nat) (acc : String),
    (indentLoop k n i acc).data = acc.data ++
      ((List.replicate (min n (k - i)) "│\t" ++ List.replicate (n - (k - i)) "\t").map
        String.data).flatten := by
  intro n
  induction n with
  | zero => intro i acc; simp [indentLoop]
  | succ n ih =>
    intro i acc
    rw [indentLoop, ih]
    by_cases h : i < k
    · have h1 : min (n + 1) (k - i) = min n (k - (i + 1)) + 1 := by omega
      have h2 : n + 1 - (k - i) = n - (k - (i + 1)) := by omega
      rw [h1, h2, List.replicate_succ]
      simp [h]
    · have h1 : k - i = 0 := by omega
      have h2 : k - (i + 1) = 0 := by omega
      rw [h1, h2]
      simp [h, List.replicate_succ]

theorem indentLoop_eq (el : treeElement) :
    indentLoop el.getNumberOfNotLastParents el.getNestingLevel 0 ""
      = indentText el.getNestingLevel el.getNumberOfNotLastParents := by
  apply String.ext
  have hk := notLast_le_level el
  rw [indentLoop_data, indentText, String.data_join]
  simp [Nat.min_eq_right hk]

theorem line_eq (el : treeElement) :
    el.line = indentText el.getNestingLevel el.getNumberOfNotLastParents ++ branchGlyph el
      ++ el.fileInfo.name ++ sizeSuffix el ++ "\n" := by
  unfold treeElement.line
  simp only [indentLoop_eq, branchGlyph, sizeSuffix]
  cases el.isLast <;> cases el.fileInfo.isDir <;> simp [String.append_assoc]

/-! ## The rendered tree -/

theorem appendStrings_eq : ∀ (t : List treeElement) (result : String),
    appendStrings t result = result ++ String.join (t.map treeElement.String) := by
  intro t
  induction t with
  | nil => intro result; simp [appendStrings, String.join]
  | cons el rest ih =>
    intro result
    rw [appendStrings, ih]
    apply String.ext
    simp

theorem String_eq (el : treeElement) :
    el.String = el.line ++ String.join (el.nestedElements.map treeElement.String) := by
  cases el with
  | mk p f l nested => rw [treeElement.String, appendStrings_eq, treeElement.nestedElements]

theorem tree_String_eq (t : tree) : tree.String t = String.join (t.map treeElement.String) := by
  rw [tree.String, appendStrings_eq]
  simp

mutual
theorem String_eq_lines : ∀ el : treeElement,
    el.String = String.join (el.nodes.map treeElement.line)
  | .mk p f l nested => by
    rw [String_eq, treeElement.nodes, treeElement.nestedElements, join_String_eq_lines nested]
    apply String.ext
    simp
theorem join_String_eq_lines : ∀ t : List treeElement,
    String.join (t.map treeElement.String) = String.join ((nodesOf t).map treeElement.line)
  | [] => by simp [nodesOf]
  | el :: rest => by
    apply String.ext
    have h1 := String_eq_lines el
    have h2 := join_String_eq_lines rest
    have h2d := congrArg String.data h2
    simp only [String.data_join, List.map_map] at h2d
    simp [nodesOf, h1, h2d]
end

theorem takeWhile_append_stop (p : Char → Bool) (l r : List Char) (c : Char)
    (hl : ∀ x ∈ l, p x = true) (hc : p c = false) : (l ++ c :: r).takeWhile p = l := by
  induction l with
  | nil => simp [List.takeWhile, hc]
  | cons a l ih =>
    have ha : p a = true := hl a (by simp)
    simp only [List.cons_append, List.takeWhile_cons, ha, if_true]
    rw [ih (fun x hx => hl x (by simp [hx]))]

theorem indentText_chars (d k : Nat) :
    ∀ x ∈ (indentText d k).data, x = '│' ∨ x = '\t' := by
  intro x hx
  simp only [indentText, String.data_join, List.mem_flatten, List.mem_map] at hx
  obtain ⟨l, ⟨s, hs, rfl⟩, hxl⟩ := hx
  rcases List.mem_append.1 hs with h | h
  · rw [List.eq_of_mem_replicate h] at hxl
    simp at hxl
    tauto
  · rw [List.eq_of_mem_replicate h] at hxl
    simp at hxl
    tauto

theorem indentOf_String (el : treeElement) :
    indentOf el.String = indentText el.getNestingLevel el.getNumberOfNotLastParents := by
  apply String.ext
  rw [indentOf, String_eq, line_eq]
  simp only [String.data_append]
  have hg : ∃ c r, (branchGlyph el).data = c :: r ∧ (c != '├' && c != '└') = false := by
    unfold branchGlyph
    cases el.isLast
    · exact ⟨'├', _, rfl, by decide⟩
    · exact ⟨'└', _, rfl, by decide⟩
  obtain ⟨c, r, hcr, hc⟩ := hg
  rw [hcr]
  simp only [List.append_assoc, List.cons_append]
  apply takeWhile_append_stop _ _ _ _ _ hc
  intro x hx
  rcases indentText_chars _ _ x hx with h | h <;> subst h <;> decide

/-! ## The builder: what a successful build is made of -/

theorem buildLoop_ok (recurse : String → Option treeElement → Option (tree × Option GoError))
    (join : String → String → String) (fullPath : String) (parentElement : Option treeElement)
    (len : Nat) : ∀ (files : List FileInfo) (i : Nat) (resultTree t : tree),
    buildLoop recurse join fullPath parentElement len files i resultTree = some (t, none) →
    ∃ els, t = resultTree ++ els ∧
      Level (fun p par r => recurse p par = some (r, none)) join fullPath parentElement len
        files i els := by
  intro files
  induction files with
  | nil =>
    intro i resultTree t h
    simp only [buildLoop, Option.some.injEq, Prod.mk.injEq, and_true] at h
    exact ⟨[], by simp [h], Level.nil i⟩
  | cons f rest ih =>
    intro i resultTree t h
    rw [buildLoop] at h
    by_cases hf : f.isDir = true
    · simp only [hf, if_true] at h
      cases hr : recurse (join fullPath f.name)
          (some (.mk parentElement f (decide ((i : Int) = (len : Int) - 1)) [])) with
      | none => simp [hr] at h
      | some r =>
        obtain ⟨nested, e⟩ := r
        cases e with
        | some err => simp [hr] at h
        | none =>
          simp only [hr] at h
          obtain ⟨els, hels, hlev⟩ := ih _ _ _ h
          exact ⟨_ :: els, by simp [hels], Level.dir f rest i els nested hf hr hlev⟩
    · have hf2 : f.isDir = false := by simpa using hf
      simp only [hf2] at h
      obtain ⟨els, hels, hlev⟩ := ih _ _ _ h
      exact ⟨_ :: els, by simp [hels], Level.file f rest i els hf2 hlev⟩

theorem Level.mono {P Q : String → Option treeElement → tree → Prop}
    {join : String → String → String} {fullPath : String} {parentElement : Option treeElement}
    {len : Nat} (hPQ : ∀ p par r, P p par r → Q p par r) :
    ∀ {files : List FileInfo} {i : Nat} {els : tree},
      Level P join fullPath parentElement len files i els →
      Level Q join fullPath parentElement len files i els := by
  intro files i els h
  induction h with
  | nil i => exact Level.nil i
  | file f rest i els hf _ ih => exact Level.file f rest i els hf ih
  | dir f rest i els nested hf hn _ ih => exact Level.dir f rest i els nested hf (hPQ _ _ _ hn) ih

/-- Induction over successful builds: a property of (path, parent pointer, tree) that passes
from the children of the directory nodes of a level to the level holds of every tree
that `buildTreeRecursively` returns without error. -/
theorem build_induction (env : Env) (addFiles : Bool)
    (P : String → Option treeElement → tree → Prop)
    (step : ∀ (fullPath : String) (parentElement : Option treeElement) (files : List FileInfo)
      (els : tree), env.readDir fullPath = .ok files →
      Level P env.join fullPath parentElement (listed addFiles files).length
        (listed addFiles files) 0 els → P fullPath parentElement els) :
    ∀ (fuel : Nat) (fullPath : String) (parentElement : Option treeElement) (t : tree),
      buildTreeRecursively env addFiles fuel fullPath parentElement = some (t, none) →
      P fullPath parentElement t := by
  intro fuel
  induction fuel with
  | zero => intro fullPath parentElement t h; simp [buildTreeRecursively] at h
  | succ fuel ih =>
    intro fullPath parentElement t h
    rw [buildTreeRecursively] at h
    cases hr : env.readDir fullPath with
    | error err => simp [hr] at h
    | ok files =>
      simp only [hr] at h
      obtain ⟨els, hels, hlev⟩ := buildLoop_ok _ _ _ _ _ _ _ _ _ h
      simp only [List.nil_append] at hels
      subst hels
      exact step fullPath parentElement files t hr (Level.mono (fun p par r => ih p par r) hlev)

theorem Level.mem {P : String → Option treeElement → tree → Prop}
    {join : String → String → String} {fullPath : String} {parentElement : Option treeElement}
    {len : Nat} {files : List FileInfo} {i : Nat} {els : tree}
    (h : Level P join fullPath parentElement len files i els) :
    ∀ el ∈ els, ∃ f b, f ∈ files ∧
      ((f.isDir = false ∧ el = .mk parentElement f b []) ∨
       (f.isDir = true ∧ ∃ nested, el = .mk parentElement f b nested ∧
          P (join fullPath f.name) (some (.mk parentElement f b [])) nested)) := by
  induction h with
  | nil i => intro el hel; simp at hel
  | file f rest i els hf _ ih =>
    intro el hel
    rcases List.mem_cons.1 hel with rfl | hel
    · exact ⟨f, _, by simp, Or.inl ⟨hf, rfl⟩⟩
    · obtain ⟨g, b, hg, hcase⟩ := ih el hel
      exact ⟨g, b, by simp [hg], hcase⟩
  | dir f rest i els nested hf hn _ ih =>
    intro el hel
    rcases List.mem_cons.1 hel with rfl | hel
    · exact ⟨f, _, by simp, Or.inr ⟨hf, nested, rfl, hn⟩⟩
    · obtain ⟨g, b, hg, hcase⟩ := ih el hel
      exact ⟨g, b, by simp [hg], hcase⟩

theorem Level.fileInfos {P : String → Option treeElement → tree → Prop}
    {join : String → String → String} {fullPath : String} {parentElement : Option treeElement}
    {len : Nat} {files : List FileInfo} {i : Nat} {els : tree}
    (h : Level P join fullPath parentElement len files i els) :
    els.map treeElement.fileInfo = files := by
  induction h with
  | nil i => rfl
  | file f rest i els hf _ ih => simp [treeElement.fileInfo, ih]
  | dir f rest i els nested hf hn _ ih => simp [treeElement.fileInfo, ih]

theorem Level.isLast {P : String → Option treeElement → tree → Prop}
    {join : String → String → String} {fullPath : String} {parentElement : Option treeElement}
    {len : Nat} {files : List FileInfo} {i : Nat} {els : tree}
    (h : Level P join fullPath parentElement len files i els) :
    ∀ (j : Nat) (hj : j < els.length), (els.get ⟨j, hj⟩).isLast = decide (i + j + 1 = len) := by
  induction h with
  | nil i => intro j hj; simp at hj
  | file f rest i els hf _ ih =>
    intro j hj
    cases j with
    | zero =>
      simp only [List.get_eq_getElem, List.getElem_cons_zero, treeElement.isLast, decide_eq_decide]
      omega
    | succ j =>
      have := ih j (by simpa using hj)
      simp only [List.get_eq_getElem, List.getElem_cons_succ] at this ⊢
      rw [this]
      simp only [decide_eq_decide]
      omega
  | dir f rest i els nested hf hn _ ih =>
    intro j hj
    cases j with
    | zero =>
      simp only [List.get_eq_getElem, List.getElem_cons_zero, treeElement.isLast, decide_eq_decide]
      omega
    | succ j =>
      have := ih j (by simpa using hj)
      simp only [List.get_eq_getElem, List.getElem_cons_succ] at this ⊢
      rw [this]
      simp only [decide_eq_decide]
      omega

/-! ## Nodes of a tree -/

theorem nodes_eq (el : treeElement) : el.nodes = el :: nodesOf el.nestedElements := by
  cases el with
  | mk p f l nested => rw [treeElement.nodes, treeElement.nestedElements]

theorem located_eq (el : treeElement) (encl : List treeElement) :
    el.located encl = (encl, el) :: locatedIn el.nestedElements (encl ++ [el]) := by
  cases el with
  | mk p f l nested => rw [treeElement.located, treeElement.nestedElements]

theorem mem_nodesOf (q : treeElement) : ∀ t : List treeElement,
    q ∈ nodesOf t ↔ ∃ el ∈ t, q ∈ el.nodes := by
  intro t
  induction t with
  | nil => simp [nodesOf]
  | cons el rest ih => simp [nodesOf, ih]

theorem mem_locatedIn (q : List treeElement × treeElement) (encl : List treeElement) :
    ∀ t : List treeElement, q ∈ locatedIn t encl ↔ ∃ el ∈ t, q ∈ el.located encl := by
  intro t
  induction t with
  | nil => simp [locatedIn]
  | cons el rest ih => simp [locatedIn, ih]

/-! ## Indentation slots -/

theorem slotsOfChars_indent (k m : Nat) :
    slotsOfChars ((List.replicate k ['│', '\t'] ++ List.replicate m ['\t']).flatten)
      = List.replicate k ['│', '\t'] ++ List.replicate m ['\t'] := by
  induction k with
  | zero =>
    induction m with
    | zero => simp [slotsOfChars]
    | succ m ih =>
      simp only [List.replicate_zero, List.nil_append] at ih ⊢
      rw [List.replicate_succ, List.flatten_cons]
      show slotsOfChars ('\t' :: (List.replicate m ['\t']).flatten) = _
      simp only [slotsOfChars, if_true, ih]
  | succ k ih =>
    have hne : ('│' : Char) ≠ '\t' := by decide
    rw [List.replicate_succ, List.cons_append, List.flatten_cons]
    show slotsOfChars ('│' :: '\t' ::
      (List.replicate k ['│', '\t'] ++ List.replicate m ['\t']).flatten) = _
    simp only [slotsOfChars, hne, if_false, if_true, ih]

theorem slots_indentText (d k : Nat) :
    slots (indentText d k) = List.replicate k "│\t" ++ List.replicate (d - k) "\t" := by
  have h1 : ("│\t" : String).data = ['│', '\t'] := rfl
  have h2 : ("\t" : String).data = ['\t'] := rfl
  have e1 : String.mk ['│', '\t'] = "│\t" := rfl
  have e2 : String.mk ['\t'] = "\t" := rfl
  simp only [slots, indentText, String.data_join, List.map_append, List.map_replicate, h1, h2,
    slotsOfChars_indent, e1, e2]

theorem count_tab_indentText (d k : Nat) (hk : k ≤ d) :
    (indentText d k).data.count '\t' = d := by
  have h1 : ("│\t" : String).data = ['│', '\t'] := rfl
  have h2 : ("\t" : String).data = ['\t'] := rfl
  simp only [indentText, String.data_join, List.map_append, List.map_replicate, h1, h2,
    List.flatten_append, List.count_append, List.count_flatten, List.map_replicate,
    List.sum_replicate]
  have c1 : List.count '\t' ['│', '\t'] = 1 := by decide
  have c2 : List.count '\t' ['\t'] = 1 := by decide
  simp only [c1, c2, smul_eq_mul, mul_one]
  omega

/-- C2 (prefix format). For every node, with `d = getNestingLevel` the number of ancestors in
its parent chain and `k = getNumberOfNotLastParents` the number of those that are not last
siblings: `k ≤ d`; the text of the rendered line before the branch glyph is `k` copies of a
bar followed by a tab, then `d - k` bare tabs; that text has `d` slots and slot `i` is
"│\t" when `i < k` and "\t" otherwise. -/
theorem prefix_format (el : treeElement) :
    el.getNestingLevel = el.ancestors.length ∧
    el.getNumberOfNotLastParents = el.ancestors.countP (fun a => !a.isLast) ∧
    el.getNumberOfNotLastParents ≤ el.getNestingLevel ∧
    indentOf el.String
      = String.join (List.replicate el.getNumberOfNotLastParents "│\t"
          ++ List.replicate (el.getNestingLevel - el.getNumberOfNotLastParents) "\t") ∧
    (slots (indentOf el.String)).length = el.getNestingLevel ∧
    ∀ i, i < el.getNestingLevel →
      (slots (indentOf el.String))[i]?
        = some (if i < el.getNumberOfNotLastParents then "│\t" else "\t") := by
  have hk := notLast_le_level el
  refine ⟨getNestingLevel_eq el, getNumberOfNotLastParents_eq el, hk, ?_, ?_, ?_⟩
  · rw [indentOf_String, indentText]
  · rw [indentOf_String, slots_indentText]
    simp only [List.length_append, List.length_replicate]
    omega
  · intro i hi
    rw [indentOf_String, slots_indentText]
    by_cases h : i < el.getNumberOfNotLastParents
    · rw [List.getElem?_append_left (by simpa using h)]
      simp [h]
    · rw [List.getElem?_append_right (by simpa using h)]
      simp only [List.length_replicate, h, if_false]
      rw [List.getElem?_replicate]
      simp
      omega

/-! ## Depth of the built nodes -/

theorem getNestingLevel_mk (p : Option treeElement) (f : FileInfo) (b : Bool)
    (n : List treeElement) : (treeElement.mk p f b n).getNestingLevel = levelOf p := by
  cases p with
  | none => simp [getNestingLevel_eq, treeElement.ancestors, levelOf]
  | some p => simp [getNestingLevel_eq, treeElement.ancestors, levelOf]

theorem built_depth (env : Env) (addFiles : Bool) (fuel : Nat) (fullPath : String)
    (parentElement : Option treeElement) (t : tree)
    (h : buildTreeRecursively env addFiles fuel fullPath parentElement = some (t, none)) :
    ∀ encl : List treeElement, encl.length = levelOf parentElement →
      ∀ q ∈ locatedIn t encl, q.2.getNestingLevel = q.1.length := by
  refine build_induction env addFiles
    (fun _ par t => ∀ encl : List treeElement, encl.length = levelOf par →
      ∀ q ∈ locatedIn t encl, q.2.getNestingLevel = q.1.length) ?_ fuel fullPath parentElement t h
  intro path par files els _ hlev encl hencl q hq
  obtain ⟨el, hel, hq⟩ := (mem_locatedIn q encl els).1 hq
  rw [located_eq] at hq
  obtain ⟨f, b, _, hcase⟩ := hlev.mem el hel
  rcases List.mem_cons.1 hq with rfl | hq
  · rcases hcase with ⟨_, rfl⟩ | ⟨_, nested, rfl, _⟩ <;> simp [getNestingLevel_mk, hencl]
  · rcases hcase with ⟨_, rfl⟩ | ⟨_, nested, rfl, hP⟩
    · simp [treeElement.nestedElements, locatedIn] at hq
    · simp only [treeElement.nestedElements] at hq
      exact hP _ (by simp [levelOf, getNestingLevel_mk, hencl]) q hq

/-- C3 (indentation equals depth). In every tree that `buildTree` returns without error, for
every node, enclosed by the directory nodes `q.1` (none for the entries of the root listing):
the number of tab characters before the branch glyph of its rendered line, the number of
its indentation slots and the length of its parent chain all equal the number of enclosing
nodes. -/
theorem indentation_equals_depth (env : Env) (fuel : Nat) (b : treeBuilder) (t : tree)
    (h : b.buildTree env fuel = some (t, none)) :
    ∀ q ∈ locatedIn t [],
      (indentOf q.2.String).data.count '\t' = q.1.length ∧
      (slots (indentOf q.2.String)).length = q.1.length ∧
      q.2.getNestingLevel = q.1.length ∧ q.2.ancestors.length = q.1.length := by
  intro q hq
  have hd := built_depth env b.addFiles fuel b.rootPath none t h [] rfl q hq
  refine ⟨?_, ?_, hd, ?_⟩
  · rw [indentOf_String, count_tab_indentText _ _ (notLast_le_level _), hd]
  · rw [indentOf_String, slots_indentText]
    have hk := notLast_le_level q.2
    simp only [List.length_append, List.length_replicate]
    omega
  · rw [← getNestingLevel_eq, hd]

theorem indentation_equals_depth_witness :
    (newTreeBuilder "." true).buildTree nestedEnv 4 = some (nestedTree, none) ∧
    ∀ q ∈ locatedIn nestedTree [],
      (indentOf q.2.String).data.count '\t' = q.1.length ∧
      (slots (indentOf q.2.String)).length = q.1.length ∧
      q.2.getNestingLevel = q.1.length ∧ q.2.ancestors.length = q.1.length :=
  ⟨rfl, indentation_equals_depth nestedEnv 4 (newTreeBuilder "." true) nestedTree rfl⟩

/-! ## The vertical bars -/

/-- C1 (vertical-bar property) at a failing input. Building the filesystem `nestedEnv` with
files succeeds; the node of the file "x" has the ancestor chain "a", "b", where "a" is a last
sibling and "b" is not. Its rendered line is "│\t\t└───x (3b)\n": slot 0 holds a bar
although the ancestor "a" is last, and slot 1 holds none although the ancestor "b" is not
last. -/
theorem vertical_bar_failing_input :
    (newTreeBuilder "." true).buildTree nestedEnv 4 = some (nestedTree, none) ∧
    nestedX ∈ nodesOf nestedTree ∧
    nestedX.ancestors.map treeElement.fileInfo = [⟨"a", true, 4096⟩, ⟨"b", true, 4096⟩] ∧
    nestedX.ancestors.map treeElement.isLast = [true, false] ∧
    nestedX.String = "│\t\t└───x (3b)\n" ∧
    barInSlot nestedX.String 0 = true ∧ barInSlot nestedX.String 1 = false ∧
    tree.String nestedTree = "└───a\n\t├───b\n│\t\t└───x (3b)\n\t└───c\n" := by
  refine ⟨rfl, ?_, rfl, rfl, by decide, by decide, by decide, by decide⟩
  have h : ∃ a b c, nodesOf nestedTree = [a, b, nestedX, c] := ⟨_, _, _, rfl⟩
  obtain ⟨a, b, c, h⟩ := h
  rw [h]
  simp

/-! ## Induction over the nodes and the sibling groups of a built tree -/

theorem nodes_induction (env : Env) (addFiles : Bool) (N : treeElement → Prop)
    (step : ∀ (par : Option treeElement) (f : FileInfo) (b : Bool) (nested : tree),
      (∃ path files, env.readDir path = .ok files ∧ f ∈ listed addFiles files) →
      (∀ q ∈ nodesOf nested, N q) → (f.isDir = false → nested = []) →
      N (.mk par f b nested))
    (fuel : Nat) (fullPath : String) (parentElement : Option treeElement) (t : tree)
    (h : buildTreeRecursively env addFiles fuel fullPath parentElement = some (t, none)) :
    ∀ q ∈ nodesOf t, N q := by
  refine build_induction env addFiles (fun _ _ r => ∀ q ∈ nodesOf r, N q) ?_
    fuel fullPath parentElement t h
  intro path par files els hread hlev q hq
  obtain ⟨el, hel, hq⟩ := (mem_nodesOf q els).1 hq
  rw [nodes_eq] at hq
  obtain ⟨f, b, hf, hcase⟩ := hlev.mem el hel
  rcases hcase with ⟨hfile, rfl⟩ | ⟨hdir, nested, rfl, hP⟩
  · rcases List.mem_cons.1 hq with rfl | hq
    · exact step par f b [] ⟨path, files, hread, hf⟩ (by simp [nodesOf]) (fun _ => rfl)
    · simp [treeElement.nestedElements, nodesOf] at hq
  · rcases List.mem_cons.1 hq with rfl | hq
    · exact step par f b nested ⟨path, files, hread, hf⟩ hP (by simp [hdir])
    · exact hP q hq

theorem groups_induction (env : Env) (addFiles : Bool) (G : tree → Prop) (hnil : G [])
    (hlevel : ∀ (path : String) (par : Option treeElement) (files : List FileInfo) (els : tree),
      env.readDir path = .ok files →
      Level (fun _ _ _ => True) env.join path par (listed addFiles files).length
        (listed addFiles files) 0 els → G els)
    (fuel : Nat) (fullPath : String) (parentElement : Option treeElement) (t : tree)
    (h : buildTreeRecursively env addFiles fuel fullPath parentElement = some (t, none)) :
    ∀ g ∈ groupsOf t, G g := by
  refine build_induction env addFiles (fun _ _ r => ∀ g ∈ groupsOf r, G g) ?_
    fuel fullPath parentElement t h
  intro path par files els hread hlev g hg
  rcases List.mem_cons.1 hg with rfl | hg
  · exact hlevel path par files _ hread (Level.mono (fun _ _ _ _ => trivial) hlev)
  · obtain ⟨q, hq, rfl⟩ := List.mem_map.1 hg
    obtain ⟨el, hel, hq⟩ := (mem_nodesOf q els).1 hq
    rw [nodes_eq] at hq
    obtain ⟨f, b, hf, hcase⟩ := hlev.mem el hel
    rcases hcase with ⟨hfile, rfl⟩ | ⟨hdir, nested, rfl, hP⟩
    · rcases List.mem_cons.1 hq with rfl | hq
      · simpa [treeElement.nestedElements] using hnil
      · simp [treeElement.nestedElements, nodesOf] at hq
    · rcases List.mem_cons.1 hq with rfl | hq
      · exact hP _ (by simp [groupsOf, treeElement.nestedElements])
      · exact hP _ (by
          simp only [treeElement.nestedElements] at hq
          exact List.mem_cons_of_mem _ (List.mem_map.2 ⟨q, hq, rfl⟩))

/-! ## Filtering and sorting the listing -/

theorem removeFilesLoop_eq : ∀ (files result : List FileInfo),
    removeFilesLoop files result = result ++ files.filter (fun f => f.isDir) := by
  intro files
  induction files with
  | nil => intro result; simp [removeFilesLoop]
  | cons f rest ih =>
    intro result
    rw [removeFilesLoop, ih]
    cases hf : f.isDir <;> simp [hf]

theorem removeFiles_eq (files : List FileInfo) :
    removeFiles files = files.filter (fun f => f.isDir) := by
  simp [removeFiles, removeFilesLoop_eq]

theorem not_less_iff (a b : FileInfo) : ¬ less b a ↔ a.name ≤ b.name := by
  rw [less, String.le_iff_toList_le]
  exact not_lt

theorem notLess_isTotal : IsTotal FileInfo (fun a b => ¬ less b a) :=
  ⟨fun a b => by
    simp only [not_less_iff]
    exact le_total _ _⟩

theorem notLess_isTrans : IsTrans FileInfo (fun a b => ¬ less b a) :=
  ⟨fun a b c hab hbc => by
    simp only [not_less_iff] at *
    exact le_trans hab hbc⟩

theorem sortSlice_perm (files : List FileInfo) : (sortSlice files).Perm files :=
  List.perm_insertionSort _ files

theorem sortSlice_sorted (files : List FileInfo) :
    List.Sorted (· ≤ ·) ((sortSlice files).map (fun f => f.name)) := by
  haveI := notLess_isTotal
  haveI := notLess_isTrans
  have h : List.Sorted (fun a b => ¬ less b a) (sortSlice files) :=
    List.sorted_insertionSort _ files
  rw [List.Sorted, List.pairwise_map]
  exact List.Pairwise.imp (fun {a b} hab => (not_less_iff a b).1 hab) h

theorem mem_listed_false (files : List FileInfo) (f : FileInfo)
    (h : f ∈ listed false files) : f ∈ files ∧ f.isDir = true := by
  have := (sortSlice_perm _).mem_iff.1 h
  simpa [removeFiles_eq] using this

theorem mem_listed (addFiles : Bool) (files : List FileInfo) (f : FileInfo)
    (h : f ∈ listed addFiles files) : f ∈ files := by
  have := (sortSlice_perm _).mem_iff.1 h
  cases addFiles
  · simp only [removeFiles_eq, Bool.not_false, if_true, List.mem_filter] at this
    exact this.1
  · simpa using this

/-! ## Sibling order and the last-sibling flag -/

/-- C4 (sibling order). In every tree that `buildTree` returns without error, every sibling
group (the top-level tree and the `nestedElements` of every node at every depth) is sorted
ascending by entry name, whatever the order of the listings. -/
theorem sibling_order (env : Env) (fuel : Nat) (b : treeBuilder) (t : tree)
    (h : b.buildTree env fuel = some (t, none)) :
    ∀ g ∈ groupsOf t, List.Sorted (· ≤ ·) (g.map (fun el => el.fileInfo.name)) := by
  refine groups_induction env b.addFiles
    (fun g => List.Sorted (· ≤ ·) (g.map (fun el => el.fileInfo.name))) (by simp) ?_
    fuel b.rootPath none t h
  intro path par files els _ hlev
  have hmap : els.map (fun el => el.fileInfo.name)
      = (listed b.addFiles files).map (fun f => f.name) := by
    rw [← hlev.fileInfos, List.map_map]
    rfl
  rw [hmap]
  exact sortSlice_sorted _

theorem sibling_order_witness :
    (newTreeBuilder "." true).buildTree nestedEnv 4 = some (nestedTree, none) ∧
    ∀ g ∈ groupsOf nestedTree, List.Sorted (· ≤ ·) (g.map (fun el => el.fileInfo.name)) :=
  ⟨rfl, sibling_order nestedEnv 4 (newTreeBuilder "." true) nestedTree rfl⟩

theorem lastFlag_count {α : Type} (p : α → Bool) (g : List α)
    (h : ∀ (i : Nat) (hi : i < g.length), p (g.get ⟨i, hi⟩) = decide (i + 1 = g.length)) :
    g.countP p = (if g.isEmpty then 0 else 1) ∧ ∀ x, g.getLast? = some x → p x = true := by
  rcases List.eq_nil_or_concat g with rfl | ⟨L, x, hg⟩
  · simp
  · rw [List.concat_eq_append] at hg
    subst hg
    have hx : p x = true := by
      have := h L.length (by simp)
      simpa using this
    have hL : ∀ a ∈ L, ¬ p a = true := by
      intro a ha
      obtain ⟨j, hj, rfl⟩ := List.getElem_of_mem ha
      have := h j (by simp; omega)
      simp only [List.get_eq_getElem, List.length_append, List.length_singleton,
        List.getElem_append_left hj] at this
      rw [this]
      simp
      omega
    refine ⟨?_, ?_⟩
    · rw [List.countP_append, List.countP_eq_zero.2 hL]
      simp [hx]
    · intro y hy
      simp at hy
      rw [← hy]
      exact hx

/-- C5 (last-sibling flag). In every tree that `buildTree` returns without error, in every
sibling group `g` the node at index `i` has `isLast = (i == len(g) - 1)`; so the number of
nodes with `isLast` true is 1 for a non-empty group and 0 for an empty one, and the final
element of a group has `isLast` true. -/
theorem last_sibling_flag (env : Env) (fuel : Nat) (b : treeBuilder) (t : tree)
    (h : b.buildTree env fuel = some (t, none)) :
    ∀ g ∈ groupsOf t,
      (∀ (i : Nat) (hi : i < g.length),
        (g.get ⟨i, hi⟩).isLast = decide ((i : Int) = (g.length : Int) - 1)) ∧
      g.countP treeElement.isLast = (if g.isEmpty then 0 else 1) ∧
      ∀ x, g.getLast? = some x → x.isLast = true := by
  have key : ∀ g ∈ groupsOf t, ∀ (i : Nat) (hi : i < g.length),
      (g.get ⟨i, hi⟩).isLast = decide (i + 1 = g.length) := by
    refine groups_induction env b.addFiles
      (fun g => ∀ (i : Nat) (hi : i < g.length),
        (g.get ⟨i, hi⟩).isLast = decide (i + 1 = g.length)) (by simp) ?_
      fuel b.rootPath none t h
    intro path par files els _ hlev i hi
    have hlen : els.length = (listed b.addFiles files).length := by
      rw [← hlev.fileInfos, List.length_map]
    rw [hlev.isLast i hi, hlen]
    simp
  intro g hg
  refine ⟨?_, lastFlag_count treeElement.isLast g (key g hg)⟩
  intro i hi
  rw [key g hg i hi]
  simp only [decide_eq_decide]
  omega

theorem last_sibling_flag_witness :
    (newTreeBuilder "." true).buildTree nestedEnv 4 = some (nestedTree, none) ∧
    ∀ g ∈ groupsOf nestedTree,
      (∀ (i : Nat) (hi : i < g.length),
        (g.get ⟨i, hi⟩).isLast = decide ((i : Int) = (g.length : Int) - 1)) ∧
      g.countP treeElement.isLast = (if g.isEmpty then 0 else 1) ∧
      ∀ x, g.getLast? = some x → x.isLast = true :=
  ⟨rfl, last_sibling_flag nestedEnv 4 (newTreeBuilder "." true) nestedTree rfl⟩

/-! ## File exclusion -/

/-- C6 (file exclusion). When `addFiles` is false, in every tree that `buildTree` returns
without error every node at every depth wraps a directory entry, no node has a size
annotation, and the rendered output is the concatenation over the nodes in pre-order of
indentation, branch glyph, name and line break alone. A root with the empty directory "a"
and the 5-byte file "b.txt" renders as exactly "└───a\n". -/
theorem file_exclusion (env : Env) (fuel : Nat) (rootPath : String) (t : tree)
    (h : (newTreeBuilder rootPath false).buildTree env fuel = some (t, none)) :
    (∀ q ∈ nodesOf t, q.fileInfo.isDir = true) ∧
    (∀ q ∈ nodesOf t, sizeSuffix q = "") ∧
    tree.String t = String.join ((nodesOf t).map
      (fun q => indentOf q.String ++ branchGlyph q ++ q.fileInfo.name ++ "\n")) ∧
    (newTreeBuilder "." false).buildTree scenarioEnv 2 = some (scenarioDirs, none) ∧
    tree.String scenarioDirs = "└───a\n" := by
  have hdir : ∀ q ∈ nodesOf t, q.fileInfo.isDir = true := by
    refine nodes_induction env false (fun q => q.fileInfo.isDir = true) ?_
      fuel rootPath none t h
    intro par f b nested hf _ _
    obtain ⟨path, files, _, hmem⟩ := hf
    exact (mem_listed_false files f hmem).2
  have hann : ∀ q ∈ nodesOf t, sizeSuffix q = "" := by
    intro q hq
    simp [sizeSuffix, hdir q hq]
  refine ⟨hdir, hann, ?_, rfl, by decide⟩
  rw [tree_String_eq, join_String_eq_lines]
  congr 1
  apply List.map_congr_left
  intro q hq
  rw [line_eq, indentOf_String, hann q hq]
  simp

theorem file_exclusion_witness :
    (newTreeBuilder "." false).buildTree nestedEnv 4
      = some ([.mk none ⟨"a", true, 4096⟩ true
          [.mk (some nestedA) ⟨"b", true, 4096⟩ false [],
           .mk (some nestedA) ⟨"c", true, 4096⟩ true []]], none) ∧
    (∀ q ∈ nodesOf [.mk none ⟨"a", true, 4096⟩ true
          [.mk (some nestedA) ⟨"b", true, 4096⟩ false [],
           .mk (some nestedA) ⟨"c", true, 4096⟩ true []]], q.fileInfo.isDir = true) :=
  ⟨rfl, (file_exclusion nestedEnv 4 "." _ rfl).1⟩

/-! ## Failure of a build -/

theorem withinDepth_succ (env : Env) (n : Nat) (path : String) (files : List FileInfo)
    (hread : env.readDir path = .ok files) (h : withinDepth env (n + 1) path = true) :
    ∀ f ∈ files, f.isDir = true → withinDepth env n (env.join path f.name) = true := by
  intro f hf hdir
  simp only [withinDepth, hread, List.all_eq_true] at h
  simpa [hdir] using h f hf

theorem buildLoop_outcome (env : Env)
    (recurse : String → Option treeElement → Option (tree × Option GoError))
    (fullPath : String) (parentElement : Option treeElement) (len n : Nat)
    (hR : ∀ p par, withinDepth env n p = true → Outcome env p (recurse p par)) :
    ∀ (rest : List FileInfo) (i : Nat) (resultTree : tree),
      (∀ f ∈ rest, f.isDir = true → withinDepth env n (env.join fullPath f.name) = true) →
      (∃ t, buildLoop recurse env.join fullPath parentElement len rest i resultTree
            = some (t, none) ∧
          ∀ f ∈ rest, f.isDir = true → ∀ p, Reached env (env.join fullPath f.name) p →
            ∃ files, env.readDir p = .ok files) ∨
      (∃ f p cause, buildLoop recurse env.join fullPath parentElement len rest i resultTree
            = some ([], some (readDirError p cause)) ∧ f ∈ rest ∧ f.isDir = true ∧
          Reached env (env.join fullPath f.name) p ∧ env.readDir p = .error cause) := by
  intro rest
  induction rest with
  | nil => intro i resultTree _; exact Or.inl ⟨resultTree, by simp [buildLoop], by simp⟩
  | cons f rest ih =>
    intro i resultTree h
    have hrest : ∀ g ∈ rest, g.isDir = true →
        withinDepth env n (env.join fullPath g.name) = true :=
      fun g hg => h g (List.mem_cons_of_mem _ hg)
    rw [buildLoop]
    by_cases hf : f.isDir = true
    · simp only [hf, if_true]
      rcases hR (env.join fullPath f.name)
          (some (.mk parentElement f (decide ((i : Int) = (len : Int) - 1)) []))
          (h f (by simp) hf) with ⟨nested, hrec, hall⟩ | ⟨p, cause, hrec, hreach, hfail⟩
      · simp only [hrec]
        rcases ih (i + 1) _ hrest with ⟨t, ht, hok⟩ | ⟨g, p, cause, ht, hg, hgd, hreach, hfail⟩
        · refine Or.inl ⟨t, ht, ?_⟩
          intro g hg hgd p hp
          rcases List.mem_cons.1 hg with rfl | hg
          · exact hall p hp
          · exact hok g hg hgd p hp
        · exact Or.inr ⟨g, p, cause, ht, List.mem_cons_of_mem _ hg, hgd, hreach, hfail⟩
      · simp only [hrec]
        exact Or.inr ⟨f, p, cause, rfl, by simp, hf, hreach, hfail⟩
    · have hf2 : f.isDir = false := by simpa using hf
      simp only [hf2]
      rcases ih (i + 1) _ hrest with ⟨t, ht, hok⟩ | ⟨g, p, cause, ht, hg, hgd, hreach, hfail⟩
      · refine Or.inl ⟨t, ht, ?_⟩
        intro g hg hgd p hp
        rcases List.mem_cons.1 hg with rfl | hg
        · rw [hf2] at hgd; cases hgd
        · exact hok g hg hgd p hp
      · exact Or.inr ⟨g, p, cause, ht, List.mem_cons_of_mem _ hg, hgd, hreach, hfail⟩

theorem mem_listed_dir (addFiles : Bool) (files : List FileInfo) (f : FileInfo)
    (hf : f ∈ files) (hdir : f.isDir = true) : f ∈ listed addFiles files := by
  apply (sortSlice_perm _).mem_iff.2
  cases addFiles
  · simp [removeFiles_eq, hf, hdir]
  · simpa using hf

theorem build_outcome (env : Env) (addFiles : Bool) :
    ∀ (n fuel : Nat) (fullPath : String) (parentElement : Option treeElement),
      n ≤ fuel → withinDepth env n fullPath = true →
      Outcome env fullPath (buildTreeRecursively env addFiles fuel fullPath parentElement) := by
  intro n
  induction n with
  | zero => intro fuel fullPath parentElement _ h; simp [withinDepth] at h
  | succ n ih =>
    intro fuel fullPath parentElement hfuel hdepth
    obtain ⟨fuel, rfl⟩ : ∃ k, fuel = k + 1 := ⟨fuel - 1, by omega⟩
    rw [buildTreeRecursively]
    cases hread : env.readDir fullPath with
    | error cause =>
      exact Or.inr ⟨fullPath, cause, rfl, Reached.here fullPath, hread⟩
    | ok files =>
      have hsub := withinDepth_succ env n fullPath files hread hdepth
      have hloop := buildLoop_outcome env (buildTreeRecursively env addFiles fuel) fullPath
        parentElement (listed addFiles files).length n
        (fun p par hp => ih fuel p par (by omega) hp) (listed addFiles files) 0 []
        (fun f hf hdir => hsub f (mem_listed addFiles files f hf) hdir)
      rcases hloop with ⟨t, ht, hok⟩ | ⟨f, p, cause, ht, hf, hfd, hreach, hfail⟩
      · refine Or.inl ⟨t, ht, ?_⟩
        intro p hp
        cases hp with
        | here => exact ⟨files, hread⟩
        | inside _ files2 f _ hread2 hf hdir hq =>
          rw [hread] at hread2
          cases hread2
          exact hok f (mem_listed_dir addFiles files f hf hdir) hdir p hq
      · exact Or.inr ⟨p, cause, ht,
          Reached.inside fullPath files f p hread (mem_listed addFiles files f hf) hfd hreach,
          hfail⟩

/-- C7 (build fails iff a listing fails). When the directories under the root path nest
less than `n` deep and the budget is at least `n`, `buildTree` returns; it returns an error
if and only if the listing of the root path or of some directory under it fails, and then
the tree is nil and the error is the one made of such a failed listing; it returns a tree and no
error if and only if every directory under the root lists. This holds for either value of
`addFiles`. -/
theorem build_fails_iff_listing_fails (env : Env) (addFiles : Bool) (rootPath : String)
    (n fuel : Nat) (hdepth : withinDepth env n rootPath = true) (hfuel : n ≤ fuel) :
    ∃ t e, (newTreeBuilder rootPath addFiles).buildTree env fuel = some (t, e) ∧
      (e ≠ none ↔ ∃ p cause, Reached env rootPath p ∧ env.readDir p = .error cause) ∧
      (e = none ↔ ∀ p, Reached env rootPath p → ∃ files, env.readDir p = .ok files) ∧
      (e ≠ none → t = []) ∧
      (∀ err, e = some err → ∃ p cause, Reached env rootPath p ∧
        env.readDir p = .error cause ∧ err = readDirError p cause) := by
  rcases build_outcome env addFiles n fuel rootPath none hfuel hdepth with
    ⟨t, ht, hok⟩ | ⟨p, cause, ht, hreach, hfail⟩
  · refine ⟨t, none, ht, ?_, ?_, ?_, ?_⟩
    · constructor
      · intro h; exact absurd rfl h
      · rintro ⟨p, cause, hp, hfail⟩
        obtain ⟨files, hfiles⟩ := hok p hp
        rw [hfiles] at hfail
        cases hfail
    · exact ⟨fun _ => hok, fun _ => rfl⟩
    · intro h; exact absurd rfl h
    · intro err h; cases h
  · refine ⟨[], some (readDirError p cause), ht, ?_, ?_, ?_, ?_⟩
    · exact ⟨fun _ => ⟨p, cause, hreach, hfail⟩, fun _ => by simp⟩
    · constructor
      · intro h; cases h
      · intro h
        obtain ⟨files, hfiles⟩ := h p hreach
        rw [hfiles] at hfail
        cases hfail
    · intro _; rfl
    · intro err h
      cases h
      exact ⟨p, cause, hreach, hfail, rfl⟩

theorem build_fails_iff_listing_fails_witness :
    withinDepth nestedEnv 4 "." = true ∧ 4 ≤ 4 ∧
    ∃ t e, (newTreeBuilder "." false).buildTree nestedEnv 4 = some (t, e) ∧
      (e ≠ none ↔ ∃ p cause, Reached nestedEnv "." p ∧ nestedEnv.readDir p = .error cause) ∧
      (e = none ↔ ∀ p, Reached nestedEnv "." p → ∃ files, nestedEnv.readDir p = .ok files) ∧
      (e ≠ none → t = []) ∧
      (∀ err, e = some err → ∃ p cause, Reached nestedEnv "." p ∧
        nestedEnv.readDir p = .error cause ∧ err = readDirError p cause) :=
  ⟨by decide, by decide,
    build_fails_iff_listing_fails nestedEnv false "." 4 4 (by decide) (by decide)⟩

/-! ## Writing the output -/

/-- C8 (no output on failure). When `buildTree` fails, `dirTree` returns the build error and
leaves the writer as it was: no write is made. When `buildTree` succeeds, the writer is
left as one `write` of the full rendered string of the built tree leaves it, and `dirTree`
returns no error exactly when that write returns none. On the recording writer: the record
is unchanged on failure and grows by the single payload `tree.String t` on success. -/
theorem no_output_on_failure {σ : Type} (env : Env) (fuel : Nat) (w : Writer σ) (out : σ)
    (path : String) (files : Bool) (fail : Option GoError) (log : List String) :
    (∀ t err, (newTreeBuilder path files).buildTree env fuel = some (t, some err) →
      dirTree env fuel w out path files = some (out, some err) ∧
      dirTree env fuel (recorder fail) log path files = some (log, some err)) ∧
    (∀ t, (newTreeBuilder path files).buildTree env fuel = some (t, none) →
      (∃ e, dirTree env fuel w out path files = some ((w.write out (tree.String t)).1, e) ∧
        (e = none ↔ (w.write out (tree.String t)).2 = none)) ∧
      (∃ e, dirTree env fuel (recorder fail) log path files
          = some (log ++ [tree.String t], e) ∧ (e = none ↔ fail = none))) := by
  have general : ∀ {τ : Type} (v : Writer τ) (o : τ) (t : tree),
      (newTreeBuilder path files).buildTree env fuel = some (t, none) →
      ∃ e, dirTree env fuel v o path files = some ((v.write o (tree.String t)).1, e) ∧
        (e = none ↔ (v.write o (tree.String t)).2 = none) := by
    intro τ v o t h
    simp only [dirTree, h]
    rcases hw : v.write o (tree.String t) with ⟨o2, e⟩
    cases e with
    | none => exact ⟨none, rfl, by simp⟩
    | some err => exact ⟨_, rfl, by simp⟩
  refine ⟨?_, ?_⟩
  · intro t err h
    simp [dirTree, h]
  · intro t h
    exact ⟨general w out t h, general (recorder fail) log t h⟩

theorem no_output_on_failure_witness :
    (dirTree nestedEnv 4 (recorder none) [] "missing" true
        = some ([], some (readDirError "missing" notExist)) ∧
      dirTree nestedEnv 4 (recorder none) [] "missing" true
        = some ([], some (readDirError "missing" notExist))) ∧
    ((∃ e, dirTree nestedEnv 4 (recorder none) [] "." true
        = some (((recorder none).write [] (tree.String nestedTree)).1, e) ∧
        (e = none ↔ ((recorder none).write [] (tree.String nestedTree)).2 = none)) ∧
     (∃ e, dirTree nestedEnv 4 (recorder none) [] "." true
        = some ([] ++ [tree.String nestedTree], e) ∧ (e = none ↔ (none : Option GoError) = none))) :=
  ⟨(no_output_on_failure nestedEnv 4 (recorder none) [] "missing" true none []).1 []
      (readDirError "missing" notExist) rfl,
   (no_output_on_failure nestedEnv 4 (recorder none) [] "." true none []).2 nestedTree rfl⟩

/-! ## Line breaks -/

theorem digitChar_ne_newline (d : Nat) : Nat.digitChar d ≠ '\n' := by
  by_cases h : d < 16
  · interval_cases d <;> decide
  · have hstar : Nat.digitChar d = '*' := by
      unfold Nat.digitChar
      iterate 16 rw [if_neg (by omega)]
    rw [hstar]
    decide

theorem toDigitsCore_no_newline (b : Nat) : ∀ (f n : Nat) (ds : List Char),
    '\n' ∉ ds → '\n' ∉ Nat.toDigitsCore b f n ds := by
  intro f
  induction f with
  | zero => intro n ds h; simpa [Nat.toDigitsCore] using h
  | succ f ih =>
    intro n ds h
    rw [Nat.toDigitsCore]
    have hd : '\n' ∉ Nat.digitChar (n % b) :: ds := by
      simp only [List.mem_cons, not_or]
      exact ⟨fun e => digitChar_ne_newline _ e.symm, h⟩
    split_ifs
    · exact hd
    · exact ih _ _ hd

theorem toString_nat_no_newline (n : Nat) : '\n' ∉ (toString n).data := by
  show '\n' ∉ (Nat.repr n).data
  rw [Nat.repr]
  simp only [List.asString]
  exact toDigitsCore_no_newline 10 _ _ _ (by simp)

theorem toString_int_no_newline (z : Int) : '\n' ∉ (toString z).data := by
  cases z with
  | ofNat n => exact toString_nat_no_newline n
  | negSucc n =>
    show '\n' ∉ ("-" ++ toString (n + 1)).data
    rw [String.data_append]
    simp only [List.mem_append, not_or]
    exact ⟨by decide, toString_nat_no_newline _⟩

theorem lineBreaks_append (a b : String) : lineBreaks (a ++ b) = lineBreaks a + lineBreaks b := by
  simp [lineBreaks, List.count_append]

theorem lineBreaks_join (l : List String) :
    lineBreaks (String.join l) = (l.map lineBreaks).sum := by
  induction l with
  | nil => simp [lineBreaks, String.join]
  | cons a l ih =>
    have h : String.join (a :: l) = a ++ String.join l := by
      apply String.ext
      simp
    rw [h, lineBreaks_append, ih]
    simp

theorem lineBreaks_sizeText (size : Int) : lineBreaks (sizeText size) = 0 := by
  unfold sizeText
  split_ifs
  · decide
  · rw [lineBreaks_append, lineBreaks_append]
    have h : lineBreaks (toString size) = 0 :=
      List.count_eq_zero.2 (toString_int_no_newline size)
    rw [h]
    decide

theorem lineBreaks_sizeSuffix (el : treeElement) : lineBreaks (sizeSuffix el) = 0 := by
  unfold sizeSuffix
  split_ifs
  · decide
  · rw [lineBreaks_append, lineBreaks_sizeText]
    decide

theorem lineBreaks_indentText (d k : Nat) : lineBreaks (indentText d k) = 0 := by
  apply List.count_eq_zero.2
  intro h
  rcases indentText_chars d k _ h with h | h <;> revert h <;> decide

theorem lineBreaks_branchGlyph (el : treeElement) : lineBreaks (branchGlyph el) = 0 := by
  unfold branchGlyph
  split_ifs <;> decide

theorem lineBreaks_line (el : treeElement) :
    lineBreaks el.line = lineBreaks el.fileInfo.name + 1 := by
  rw [line_eq]
  simp only [lineBreaks_append, lineBreaks_indentText, lineBreaks_branchGlyph,
    lineBreaks_sizeSuffix]
  have h : lineBreaks "\n" = 1 := by decide
  rw [h]
  omega

/-- C10 (pre-order concatenation). For every tree `t`, `t.String()` is the concatenation in
sequence order of the `String()` of its elements; for every node the `String()` is the
own line of the node followed by the concatenation of the `String()` of its
`nestedElements` in order; so the output is the concatenation of the own lines of all
nodes in depth-first pre-order. The own line of a node ends in a line break and holds
exactly one line break more than the name of its entry. -/
theorem preorder_concatenation :
    (∀ t : tree, tree.String t = String.join (t.map treeElement.String)) ∧
    (∀ el : treeElement,
      el.String = el.line ++ String.join (el.nestedElements.map treeElement.String)) ∧
    (∀ t : tree, tree.String t = String.join ((nodesOf t).map treeElement.line)) ∧
    (∀ el : treeElement, (∃ body, el.line = body ++ "\n") ∧
      lineBreaks el.line = lineBreaks el.fileInfo.name + 1) := by
  refine ⟨tree_String_eq, String_eq, ?_, ?_⟩
  · intro t
    rw [tree_String_eq, join_String_eq_lines]
  · intro el
    exact ⟨⟨_, line_eq el⟩, lineBreaks_line el⟩

/-! ## Counting the nodes -/

theorem lineBreaks_tree (t : tree) (hnames : ∀ q ∈ nodesOf t, '\n' ∉ q.fileInfo.name.data) :
    lineBreaks (tree.String t) = (nodesOf t).length := by
  rw [tree_String_eq, join_String_eq_lines, lineBreaks_join, List.map_map]
  have h : ∀ q ∈ nodesOf t, (lineBreaks ∘ treeElement.line) q = 1 := by
    intro q hq
    have h0 : lineBreaks q.fileInfo.name = 0 := List.count_eq_zero.2 (hnames q hq)
    simp [lineBreaks_line, h0]
  rw [List.map_congr_left h]
  simp

theorem Level.count {c : String → Nat} {join : String → String → String} {fullPath : String}
    {parentElement : Option treeElement} {len : Nat} {files : List FileInfo} {i : Nat}
    {els : tree}
    (h : Level (fun p _ r => c p = (nodesOf r).length) join fullPath parentElement len
      files i els) :
    (nodesOf els).length = files.length
      + ((files.filter (fun f => f.isDir)).map (fun f => c (join fullPath f.name))).sum := by
  induction h with
  | nil i => simp [nodesOf]
  | file f rest i els hf _ ih =>
    simp only [nodesOf, treeElement.nodes, List.length_append, List.length_cons,
      List.length_nil, ih, List.filter_cons, hf]
    simp
    omega
  | dir f rest i els nested hf hn _ ih =>
    simp only [nodesOf, treeElement.nodes, List.length_append, List.length_cons, ih,
      List.filter_cons, hf, if_true, List.map_cons, List.sum_cons, hn]
    omega

theorem listed_length (addFiles : Bool) (files : List FileInfo) :
    (listed addFiles files).length
      = (if addFiles then files else files.filter (fun f => f.isDir)).length := by
  rw [listed, (sortSlice_perm _).length_eq]
  cases addFiles <;> simp [removeFiles_eq]

theorem listed_dirs_perm (addFiles : Bool) (files : List FileInfo) :
    ((listed addFiles files).filter (fun f => f.isDir)).Perm
      (files.filter (fun f => f.isDir)) := by
  have h := (sortSlice_perm (if !addFiles then removeFiles files else files)).filter
    (fun f => f.isDir)
  cases addFiles
  · simpa [listed, removeFiles_eq, List.filter_filter] using h
  · simpa [listed] using h

theorem built_count (env : Env) (addFiles : Bool) :
    ∀ (fuel : Nat) (fullPath : String) (parentElement : Option treeElement) (t : tree),
      buildTreeRecursively env addFiles fuel fullPath parentElement = some (t, none) →
      ∀ k, fuel ≤ k → countEntries env addFiles k fullPath = (nodesOf t).length := by
  intro fuel
  induction fuel with
  | zero => intro fullPath parentElement t h; simp [buildTreeRecursively] at h
  | succ fuel ih =>
    intro fullPath parentElement t h k hk
    obtain ⟨k, rfl⟩ : ∃ j, k = j + 1 := ⟨k - 1, by omega⟩
    rw [buildTreeRecursively] at h
    cases hr : env.readDir fullPath with
    | error err => simp [hr] at h
    | ok files =>
      simp only [hr] at h
      obtain ⟨els, hels, hlev⟩ := buildLoop_ok _ _ _ _ _ _ _ _ _ h
      simp only [List.nil_append] at hels
      subst hels
      have hlev2 : Level (fun p _ r => countEntries env addFiles k p = (nodesOf r).length)
          env.join fullPath parentElement (listed addFiles files).length
          (listed addFiles files) 0 t :=
        Level.mono (fun p par r hb => ih p par r hb k (by omega)) hlev
      rw [hlev2.count, countEntries]
      simp only [hr]
      rw [listed_length,
        ((listed_dirs_perm addFiles files).map
          (fun f => countEntries env addFiles k (env.join fullPath f.name))).sum_eq]

/-- C9 (node count). When `buildTree` returns a tree without error and no entry name of the
filesystem holds a line break, the number of line breaks of the rendered output equals the
number of entries present under the root path summed recursively over all directories
(every entry when `addFiles` is true, the directory entries alone when it is false); that
number is the number of nodes of the tree, and the recursive sum has reached its final value
at the depth of the budget. -/
theorem node_count (env : Env) (fuel : Nat) (b : treeBuilder) (t : tree)
    (h : b.buildTree env fuel = some (t, none))
    (hnames : ∀ p files, env.readDir p = .ok files → ∀ f ∈ files, '\n' ∉ f.name.data) :
    lineBreaks (tree.String t) = countEntries env b.addFiles fuel b.rootPath ∧
    lineBreaks (tree.String t) = (nodesOf t).length ∧
    ∀ k, fuel ≤ k →
      countEntries env b.addFiles k b.rootPath = countEntries env b.addFiles fuel b.rootPath := by
  have hcount := built_count env b.addFiles fuel b.rootPath none t h
  have hnodes : ∀ q ∈ nodesOf t, '\n' ∉ q.fileInfo.name.data := by
    refine nodes_induction env b.addFiles (fun q => '\n' ∉ q.fileInfo.name.data) ?_
      fuel b.rootPath none t h
    intro par f flag nested hf _ _
    obtain ⟨path, files, hread, hmem⟩ := hf
    exact hnames path files hread f (mem_listed b.addFiles files f hmem)
  have hlines := lineBreaks_tree t hnodes
  refine ⟨?_, hlines, ?_⟩
  · rw [hlines, hcount fuel (le_refl _)]
  · intro k hk
    rw [hcount k hk, hcount fuel (le_refl _)]

theorem node_count_witness :
    (newTreeBuilder "." true).buildTree nestedEnv 4 = some (nestedTree, none) ∧
    (∀ p files, nestedEnv.readDir p = .ok files → ∀ f ∈ files, '\n' ∉ f.name.data) ∧
    lineBreaks (tree.String nestedTree) = countEntries nestedEnv true 4 "." ∧
    lineBreaks (tree.String nestedTree) = (nodesOf nestedTree).length ∧
    countEntries nestedEnv true 4 "." = 4 := by
  have hnames : ∀ p files, nestedEnv.readDir p = .ok files →
      ∀ f ∈ files, '\n' ∉ f.name.data := by
    intro p files hp
    simp only [nestedEnv] at hp
    split_ifs at hp <;> cases hp <;> decide
  have h := node_count nestedEnv 4 (newTreeBuilder "." true) nestedTree rfl hnames
  exact ⟨rfl, hnames, h.1, h.2.1, by decide⟩

/-! ## The shape of a line -/

/-- C11 (branch glyph and line shape). For every node the rendered line is the indentation
prefix, then the branch glyph ("└───" when `isLast` is true, "├───" otherwise), then the name
of the entry unchanged, then the annotation (the empty string for a directory node), then a
line break; the rendering of the node starts with that line. -/
theorem line_shape (el : treeElement) :
    el.line = indentOf el.String ++ (if el.isLast then "└───" else "├───") ++ el.fileInfo.name
      ++ (if el.fileInfo.isDir then "" else " " ++ sizeText el.fileInfo.size) ++ "\n" ∧
    el.String = el.line ++ String.join (el.nestedElements.map treeElement.String) := by
  refine ⟨?_, String_eq el⟩
  rw [indentOf_String, line_eq]
  rfl

/-- C12 (size annotation). For every node that is not a directory the name is followed by
one space and then "(empty)" when the size is 0, otherwise by "(", the decimal representation
of the size and "b)"; for every directory node the name is followed by the line break at
once. The root with the directory "a" and the 5-byte file "b.txt", files included, renders as
"├───a\n└───b.txt (5b)\n". -/
theorem size_text_format (el : treeElement) :
    (el.fileInfo.isDir = false →
      el.line = indentOf el.String ++ (if el.isLast then "└───" else "├───")
        ++ el.fileInfo.name ++ " "
        ++ (if el.fileInfo.size = 0 then "(empty)"
            else "(" ++ toString el.fileInfo.size ++ "b)") ++ "\n") ∧
    (el.fileInfo.isDir = true →
      el.line = indentOf el.String ++ (if el.isLast then "└───" else "├───")
        ++ el.fileInfo.name ++ "\n") ∧
    (newTreeBuilder "." true).buildTree scenarioEnv 2 = some (scenarioAll, none) ∧
    tree.String scenarioAll = "├───a\n└───b.txt (5b)\n" := by
  refine ⟨?_, ?_, rfl, by decide⟩
  · intro h
    rw [indentOf_String, line_eq, sizeSuffix, branchGlyph, sizeText, h]
    simp [String.append_assoc]
  · intro h
    rw [indentOf_String, line_eq, sizeSuffix, branchGlyph, h]
    simp

theorem size_text_format_witness :
    nestedX.fileInfo.isDir = false ∧ nestedA.fileInfo.isDir = true ∧
    nestedX.line = indentOf nestedX.String ++ (if nestedX.isLast then "└───" else "├───")
        ++ nestedX.fileInfo.name ++ " "
        ++ (if nestedX.fileInfo.size = 0 then "(empty)"
            else "(" ++ toString nestedX.fileInfo.size ++ "b)") ++ "\n" ∧
    nestedA.line = indentOf nestedA.String ++ (if nestedA.isLast then "└───" else "├───")
        ++ nestedA.fileInfo.name ++ "\n" :=
  ⟨rfl, rfl, (size_text_format nestedX).1 rfl, (size_text_format nestedA).2.1 rfl⟩

/-! ## Scenario D and the empty root -/

/-- C13 (scenario D). For the root whose listing is the directory "a", holding the single
0-byte file "empty.txt", and the empty directory "b", in either order of the listing, building
with files and rendering yields exactly "├───a\n│\t└───empty.txt (empty)\n└───b\n". -/
theorem scenario_D (swapped : Bool) :
    ∃ t, (newTreeBuilder "." true).buildTree (scenarioD swapped) 3 = some (t, none) ∧
      tree.String t = "├───a\n│\t└───empty.txt (empty)\n└───b\n" := by
  cases swapped
  · exact ⟨_, rfl, by decide⟩
  · exact ⟨_, rfl, by decide⟩

/-- C15 (empty root). If the root path lists successfully with no entries then, for either
value of `addFiles` and any positive budget, `buildTree` returns the empty tree and no error,
`dirTree` hands the empty string to the writer, and the rendering of the empty tree is the
empty string. -/
theorem empty_root (env : Env) (addFiles : Bool) (rootPath : String) (fuel : Nat)
    (h : env.readDir rootPath = .ok []) :
    (newTreeBuilder rootPath addFiles).buildTree env (fuel + 1) = some ([], none) ∧
    tree.String [] = "" ∧
    dirTree env (fuel + 1) (recorder none) [] rootPath addFiles = some ([""], none) := by
  have hb : (newTreeBuilder rootPath addFiles).buildTree env (fuel + 1) = some ([], none) := by
    cases addFiles <;>
      simp [treeBuilder.buildTree, newTreeBuilder, buildTreeRecursively, h, removeFiles,
        removeFilesLoop, sortSlice, buildLoop]
  refine ⟨hb, rfl, ?_⟩
  simp only [dirTree, hb]
  rfl

theorem empty_root_witness :
    nestedEnv.readDir "./a/c" = .ok [] ∧
    (newTreeBuilder "./a/c" false).buildTree nestedEnv (0 + 1) = some ([], none) ∧
    tree.String [] = "" ∧
    dirTree nestedEnv (0 + 1) (recorder none) [] "./a/c" false = some ([""], none) :=
  ⟨rfl, empty_root nestedEnv false "./a/c" 0 rfl⟩

/-! ## The filter -/

/-- C18 (`removeFiles` is an order-preserving filter). For every input sequence `removeFiles`
returns exactly the subsequence of the entries whose `IsDir` is true, in their original
relative order: it is a sublist of the input, an entry is in it if and only if it is in
the input and is a directory, and every directory occurs as often as in the input. -/
theorem removeFiles_filter (files : List FileInfo) :
    removeFiles files = files.filter (fun f => f.isDir) ∧
    (removeFiles files).Sublist files ∧
    (∀ f, f ∈ removeFiles files ↔ f ∈ files ∧ f.isDir = true) ∧
    (∀ f, f.isDir = true → (removeFiles files).count f = files.count f) := by
  have h := removeFiles_eq files
  refine ⟨h, ?_, ?_, ?_⟩
  · rw [h]; exact List.filter_sublist _
  · intro f; rw [h]; simp
  · intro f hf
    rw [h, List.count_filter]
    simpa using hf

/-! ## Count-based and per-column prefixes -/

theorem slotsOfChars_columns (bs : List Bool) :
    slotsOfChars (bs.map columnSlot).flatten = bs.map columnSlot := by
  induction bs with
  | nil => simp [slotsOfChars]
  | cons b bs ih =>
    have hne : ('│' : Char) ≠ '\t' := by decide
    cases b
    · show slotsOfChars ('│' :: '\t' :: (bs.map columnSlot).flatten) = _
      simp only [slotsOfChars, hne, if_false, if_true, ih]
      rfl
    · show slotsOfChars ('\t' :: (bs.map columnSlot).flatten) = _
      simp only [slotsOfChars, if_true, ih]
      rfl

theorem columns_injective (as bs : List Bool)
    (h : (as.map columnSlot).flatten = (bs.map columnSlot).flatten) : as = bs := by
  have h2 : as.map columnSlot = bs.map columnSlot := by
    rw [← slotsOfChars_columns as, ← slotsOfChars_columns bs, h]
  have hinj : Function.Injective columnSlot := by
    intro x y hxy
    cases x <;> cases y <;> first | rfl | (exact absurd hxy (by decide))
  exact List.map_injective_iff.2 hinj h2

theorem indentText_columns (d k : Nat) :
    (indentText d k).data
      = ((List.replicate k false ++ List.replicate (d - k) true).map columnSlot).flatten := by
  have h1 : ("│\t" : String).data = columnSlot false := rfl
  have h2 : ("\t" : String).data = columnSlot true := rfl
  simp only [indentText, String.data_join, List.map_append, List.map_replicate, h1, h2]
  rfl

theorem perColumnPrefix_columns (el : treeElement) :
    (perColumnPrefix el).data
      = ((el.ancestors.map treeElement.isLast).map columnSlot).flatten := by
  simp only [perColumnPrefix, String.data_join, List.map_map]
  congr 1
  apply List.map_congr_left
  intro a _
  cases h : a.isLast <;> simp [h, columnSlot]

theorem flags_initial_segment_iff (l : List Bool) :
    l = List.replicate (l.count false) false ++ List.replicate (l.length - l.count false) true
      ↔ l.Pairwise (fun x y => x = true → y = true) := by
  constructor
  · intro h
    rw [h, List.pairwise_append]
    refine ⟨?_, ?_, ?_⟩
    · rw [List.pairwise_replicate]
      simp
    · rw [List.pairwise_replicate]
      simp
    · intro x hx y hy _
      exact List.eq_of_mem_replicate hy
  · intro h
    induction l with
    | nil => simp
    | cons x l ih =>
      rw [List.pairwise_cons] at h
      have ihl := ih h.2
      cases x
      · have hc : (false :: l).count false = l.count false + 1 := by simp
        have hle := List.count_le_length false l
        rw [hc, List.replicate_succ, List.cons_append, List.length_cons,
          show l.length + 1 - (l.count false + 1) = l.length - l.count false by omega, ← ihl]
      · have hall : ∀ y ∈ l, y = true := fun y hy => h.1 y hy rfl
        have hz : l.count false = 0 := by
          apply List.count_eq_zero.2
          intro hmem
          exact absurd (hall false hmem) (by decide)
        have hl : l = List.replicate l.length true := List.eq_replicate_iff.2 ⟨rfl, hall⟩
        have hc : (true :: l).count false = 0 := by simp [hz]
        rw [hc]
        simp only [List.replicate_zero, List.nil_append, List.length_cons, Nat.sub_zero,
          List.replicate_succ]
        rw [← hl]

theorem notLast_count (el : treeElement) :
    el.getNumberOfNotLastParents = (el.ancestors.map treeElement.isLast).count false := by
  rw [getNumberOfNotLastParents_eq, List.count, List.countP_map]
  congr 1
  funext a
  cases h : a.isLast <;> simp [h]

/-- C19 (when the count-based prefix agrees with the per-column rule). For every node the
prefix that `treeElement.String` produces equals the per-column prefix (slot `i` is "│\t" if
ancestor `a_i` is not last, "\t" if it is) if and only if no last-sibling ancestor is
followed, deeper in the chain, by a not-last ancestor, that is if and only if the not-last
ancestors are an initial segment of the chain. The produced prefix is the same for any two
nodes with the same number of ancestors and the same number of not-last ancestors. -/
theorem count_prefix_agrees_iff (el : treeElement) :
    (indentOf el.String = perColumnPrefix el ↔
      el.ancestors.Pairwise (fun a b => a.isLast = true → b.isLast = true)) ∧
    (indentOf el.String = perColumnPrefix el ↔
      el.ancestors.map treeElement.isLast
        = List.replicate el.getNumberOfNotLastParents false
          ++ List.replicate (el.getNestingLevel - el.getNumberOfNotLastParents) true) ∧
    (∀ other : treeElement, other.getNestingLevel = el.getNestingLevel →
      other.getNumberOfNotLastParents = el.getNumberOfNotLastParents →
      indentOf other.String = indentOf el.String) := by
  have hseg : indentOf el.String = perColumnPrefix el ↔
      el.ancestors.map treeElement.isLast
        = List.replicate el.getNumberOfNotLastParents false
          ++ List.replicate (el.getNestingLevel - el.getNumberOfNotLastParents) true := by
    rw [indentOf_String]
    constructor
    · intro h
      have hd := congrArg String.data h
      rw [indentText_columns, perColumnPrefix_columns] at hd
      exact (columns_injective _ _ hd).symm
    · intro h
      apply String.ext
      rw [indentText_columns, perColumnPrefix_columns, ← h]
  refine ⟨?_, hseg, ?_⟩
  · rw [hseg, notLast_count, getNestingLevel_eq]
    have := flags_initial_segment_iff (el.ancestors.map treeElement.isLast)
    rw [List.length_map] at this
    rw [this, List.pairwise_map]
  · intro other hd hk
    rw [indentOf_String, indentOf_String, hd, hk]

/-! ## Parent pointers -/

theorem ancestors_mk (par : Option treeElement) (f : FileInfo) (b : Bool)
    (n : List treeElement) : (treeElement.mk par f b n).ancestors = chainOf par := by
  cases par <;> rfl

mutual
theorem located_parent : ∀ (el : treeElement) (encl : List treeElement)
    (q : List treeElement × treeElement), q ∈ el.located encl →
    q = (encl, el) ∨ ∃ p, q.1.getLast? = some p ∧ q.2 ∈ p.nestedElements
  | .mk par f b nested, encl, q, hq => by
    rw [treeElement.located] at hq
    rcases List.mem_cons.1 hq with h | h
    · exact Or.inl h
    · rcases locatedIn_parent nested _ q h with ⟨h1, h2⟩ | h3
      · refine Or.inr ⟨.mk par f b nested, ?_, ?_⟩
        · rw [h1]; simp
        · simpa [treeElement.nestedElements] using h2
      · exact Or.inr h3
theorem locatedIn_parent : ∀ (t : List treeElement) (encl : List treeElement)
    (q : List treeElement × treeElement), q ∈ locatedIn t encl →
    (q.1 = encl ∧ q.2 ∈ t) ∨ ∃ p, q.1.getLast? = some p ∧ q.2 ∈ p.nestedElements
  | [], _, q, hq => by simp [locatedIn] at hq
  | el :: rest, encl, q, hq => by
    rw [locatedIn] at hq
    rcases List.mem_append.1 hq with h | h
    · rcases located_parent el encl q h with h1 | h3
      · exact Or.inl ⟨by rw [h1], by rw [h1]; simp⟩
      · exact Or.inr h3
    · rcases locatedIn_parent rest encl q h with ⟨h1, h2⟩ | h3
      · exact Or.inl ⟨h1, List.mem_cons_of_mem _ h2⟩
      · exact Or.inr h3
end

theorem built_chain (env : Env) (addFiles : Bool) (fuel : Nat) (fullPath : String)
    (parentElement : Option treeElement) (t : tree)
    (h : buildTreeRecursively env addFiles fuel fullPath parentElement = some (t, none)) :
    ∀ encl : List treeElement, parentElement = encl.getLast?.map pointerTo →
      chainOf parentElement = encl.map pointerTo →
      ∀ q ∈ locatedIn t encl,
        q.2.ancestors = q.1.map pointerTo ∧ q.2.parentElement = q.1.getLast?.map pointerTo := by
  refine build_induction env addFiles
    (fun _ par t => ∀ encl : List treeElement, par = encl.getLast?.map pointerTo →
      chainOf par = encl.map pointerTo → ∀ q ∈ locatedIn t encl,
        q.2.ancestors = q.1.map pointerTo ∧ q.2.parentElement = q.1.getLast?.map pointerTo)
    ?_ fuel fullPath parentElement t h
  intro path par files els _ hlev encl hpar hchain q hq
  obtain ⟨el, hel, hq⟩ := (mem_locatedIn q encl els).1 hq
  rw [located_eq] at hq
  obtain ⟨f, b, _, hcase⟩ := hlev.mem el hel
  have hshape : ∃ nested, el = .mk par f b nested ∧
      (nested = [] ∨ ∀ encl : List treeElement,
        some (treeElement.mk par f b []) = encl.getLast?.map pointerTo →
        chainOf (some (treeElement.mk par f b [])) = encl.map pointerTo →
        ∀ q ∈ locatedIn nested encl,
          q.2.ancestors = q.1.map pointerTo ∧
          q.2.parentElement = q.1.getLast?.map pointerTo) := by
    rcases hcase with ⟨_, rfl⟩ | ⟨_, nested, rfl, hP⟩
    · exact ⟨[], rfl, Or.inl rfl⟩
    · exact ⟨nested, rfl, Or.inr hP⟩
  obtain ⟨nested, rfl, hnested⟩ := hshape
  rcases List.mem_cons.1 hq with rfl | hq
  · exact ⟨by rw [ancestors_mk, hchain], by simp [treeElement.parentElement, hpar]⟩
  · rcases hnested with rfl | hP
    · simp [treeElement.nestedElements, locatedIn] at hq
    · simp only [treeElement.nestedElements] at hq
      refine hP _ ?_ ?_ q hq
      · simp [pointerTo, treeElement.parentElement, treeElement.fileInfo, treeElement.isLast]
      · show (treeElement.mk par f b []).ancestors ++ [treeElement.mk par f b []] = _
        rw [ancestors_mk, hchain]
        simp [pointerTo, treeElement.parentElement, treeElement.fileInfo, treeElement.isLast]

/-- C17 (parent chain mirrors the tree). In every tree that `buildTree` returns without
error: every top-level node has no parent; every node in the `nestedElements` of a node `p`
has a parent pointer whose entry, `isLast` flag and own parent pointer are those of `p`; and
for every node the parent chain is as long as the list of its enclosing nodes, with the same
`isLast` flags and the same entries in the same order. -/
theorem parent_chain_mirrors_tree (env : Env) (fuel : Nat) (b : treeBuilder) (t : tree)
    (h : b.buildTree env fuel = some (t, none)) :
    ∀ q ∈ locatedIn t [],
      ((q.1 = [] ∧ q.2 ∈ t ∧ q.2.parentElement = none) ∨
        ∃ p r, q.1.getLast? = some p ∧ q.2 ∈ p.nestedElements ∧
          q.2.parentElement = some r ∧ r.fileInfo = p.fileInfo ∧ r.isLast = p.isLast ∧
          r.parentElement = p.parentElement) ∧
      q.2.ancestors.length = q.1.length ∧
      q.2.ancestors.map treeElement.isLast = q.1.map treeElement.isLast ∧
      q.2.ancestors.map treeElement.fileInfo = q.1.map treeElement.fileInfo := by
  intro q hq
  obtain ⟨hanc, hpar⟩ :=
    built_chain env b.addFiles fuel b.rootPath none t h [] rfl rfl q hq
  refine ⟨?_, ?_, ?_, ?_⟩
  · rcases locatedIn_parent t [] q hq with ⟨h1, h2⟩ | ⟨p, hp, hmem⟩
    · exact Or.inl ⟨h1, h2, by rw [hpar, h1]; rfl⟩
    · refine Or.inr ⟨p, pointerTo p, hp, hmem, by rw [hpar, hp]; rfl, ?_, ?_, ?_⟩ <;>
        simp [pointerTo, treeElement.parentElement, treeElement.fileInfo, treeElement.isLast]
  · rw [hanc, List.length_map]
  · rw [hanc, List.map_map]
    apply List.map_congr_left
    intro a _
    simp [pointerTo, treeElement.isLast]
  · rw [hanc, List.map_map]
    apply List.map_congr_left
    intro a _
    simp [pointerTo, treeElement.fileInfo]

theorem parent_chain_mirrors_tree_witness :
    (newTreeBuilder "." true).buildTree nestedEnv 4 = some (nestedTree, none) ∧
    ∀ q ∈ locatedIn nestedTree [],
      ((q.1 = [] ∧ q.2 ∈ nestedTree ∧ q.2.parentElement = none) ∨
        ∃ p r, q.1.getLast? = some p ∧ q.2 ∈ p.nestedElements ∧
          q.2.parentElement = some r ∧ r.fileInfo = p.fileInfo ∧ r.isLast = p.isLast ∧
          r.parentElement = p.parentElement) ∧
      q.2.ancestors.length = q.1.length ∧
      q.2.ancestors.map treeElement.isLast = q.1.map treeElement.isLast ∧
      q.2.ancestors.map treeElement.fileInfo = q.1.map treeElement.fileInfo :=
  ⟨rfl, parent_chain_mirrors_tree nestedEnv 4 (newTreeBuilder "." true) nestedTree rfl⟩

/-! ## Children and the directories they come from -/

theorem withPaths_eq (join : String → String → String) (el : treeElement) (dir : String) :
    el.withPaths join dir
      = (dir, el) :: withPathsIn join el.nestedElements (join dir el.fileInfo.name) := by
  cases el with
  | mk p f l nested => rw [treeElement.withPaths, treeElement.nestedElements, treeElement.fileInfo]

theorem mem_withPathsIn (join : String → String → String) (q : String × treeElement)
    (dir : String) : ∀ t : List treeElement,
    q ∈ withPathsIn join t dir ↔ ∃ el ∈ t, q ∈ el.withPaths join dir := by
  intro t
  induction t with
  | nil => simp [withPathsIn]
  | cons el rest ih => simp [withPathsIn, ih]

mutual
theorem withPaths_nodes (join : String → String → String) : ∀ (el : treeElement) (dir : String)
    (q : String × treeElement), q ∈ el.withPaths join dir → q.2 ∈ el.nodes
  | .mk p f l nested, dir, q, hq => by
    rw [treeElement.withPaths] at hq
    rw [treeElement.nodes]
    rcases List.mem_cons.1 hq with h | h
    · rw [h]; simp
    · exact List.mem_cons_of_mem _ (withPathsIn_nodes join nested _ q h)
theorem withPathsIn_nodes (join : String → String → String) : ∀ (t : List treeElement)
    (dir : String) (q : String × treeElement), q ∈ withPathsIn join t dir → q.2 ∈ nodesOf t
  | [], _, q, hq => by simp [withPathsIn] at hq
  | el :: rest, dir, q, hq => by
    rw [withPathsIn] at hq
    rw [nodesOf]
    rcases List.mem_append.1 hq with h | h
    · exact List.mem_append_left _ (withPaths_nodes join el dir q h)
    · exact List.mem_append_right _ (withPathsIn_nodes join rest dir q h)
end

theorem built_level (env : Env) (addFiles : Bool) (fuel : Nat) (fullPath : String)
    (parentElement : Option treeElement) (t : tree)
    (h : buildTreeRecursively env addFiles fuel fullPath parentElement = some (t, none)) :
    ∃ files, env.readDir fullPath = .ok files ∧
      Level (fun p par r => ∃ k, buildTreeRecursively env addFiles k p par = some (r, none))
        env.join fullPath parentElement (listed addFiles files).length
        (listed addFiles files) 0 t := by
  cases fuel with
  | zero => simp [buildTreeRecursively] at h
  | succ fuel =>
    rw [buildTreeRecursively] at h
    cases hr : env.readDir fullPath with
    | error err => simp [hr] at h
    | ok files =>
      simp only [hr] at h
      obtain ⟨els, hels, hlev⟩ := buildLoop_ok _ _ _ _ _ _ _ _ _ h
      simp only [List.nil_append] at hels
      subst hels
      exact ⟨files, rfl, Level.mono (fun p par r hb => ⟨fuel, hb⟩) hlev⟩

theorem built_children (env : Env) (addFiles : Bool) :
    ∀ (fuel : Nat) (fullPath : String) (parentElement : Option treeElement) (t : tree),
      buildTreeRecursively env addFiles fuel fullPath parentElement = some (t, none) →
      ∀ q ∈ withPathsIn env.join t fullPath,
        (q.2.fileInfo.isDir = false → q.2.nestedElements = []) ∧
        (q.2.fileInfo.isDir = true →
          ∃ k, buildTreeRecursively env addFiles k (env.join q.1 q.2.fileInfo.name)
            (some (pointerTo q.2)) = some (q.2.nestedElements, none)) := by
  intro fuel
  induction fuel with
  | zero => intro fullPath parentElement t h; simp [buildTreeRecursively] at h
  | succ fuel ih =>
    intro fullPath parentElement t h q hq
    rw [buildTreeRecursively] at h
    cases hr : env.readDir fullPath with
    | error err => simp [hr] at h
    | ok files =>
      simp only [hr] at h
      obtain ⟨els, hels, hlev⟩ := buildLoop_ok _ _ _ _ _ _ _ _ _ h
      simp only [List.nil_append] at hels
      subst hels
      obtain ⟨el, hel, hq⟩ := (mem_withPathsIn env.join q fullPath t).1 hq
      rw [withPaths_eq] at hq
      obtain ⟨f, b, _, hcase⟩ := hlev.mem el hel
      rcases hcase with ⟨hfile, rfl⟩ | ⟨hdir, nested, rfl, hbuilt⟩
      · rcases List.mem_cons.1 hq with rfl | hq
        · exact ⟨fun _ => rfl, fun hd => by
            simp only [treeElement.fileInfo] at hd
            rw [hfile] at hd
            cases hd⟩
        · simp [treeElement.nestedElements, withPathsIn] at hq
      · rcases List.mem_cons.1 hq with rfl | hq
        · refine ⟨fun hd => ?_, fun _ => ⟨fuel, hbuilt⟩⟩
          simp only [treeElement.fileInfo] at hd
          rw [hdir] at hd
          cases hd
        · exact ih _ _ _ hbuilt q hq

/-- C16 (children only under directories). In every tree that `buildTree` returns without
error, every node that wraps a non-directory entry has empty `nestedElements`, and the
`nestedElements` of every directory node is exactly the tree that `buildTreeRecursively`
returns, with the same `addFiles` flag and the pointer to the node as parent, for the path
obtained by joining the path of the directory that holds the entry and the name of the
entry. -/
theorem children_only_under_directories (env : Env) (fuel : Nat) (b : treeBuilder) (t : tree)
    (h : b.buildTree env fuel = some (t, none)) :
    ∀ q ∈ withPathsIn env.join t b.rootPath,
      (q.2.fileInfo.isDir = false → q.2.nestedElements = []) ∧
      (q.2.fileInfo.isDir = true →
        ∃ k, buildTreeRecursively env b.addFiles k (env.join q.1 q.2.fileInfo.name)
          (some (pointerTo q.2)) = some (q.2.nestedElements, none)) :=
  built_children env b.addFiles fuel b.rootPath none t h

theorem children_only_under_directories_witness :
    (newTreeBuilder "." true).buildTree nestedEnv 4 = some (nestedTree, none) ∧
    ∀ q ∈ withPathsIn nestedEnv.join nestedTree ".",
      (q.2.fileInfo.isDir = false → q.2.nestedElements = []) ∧
      (q.2.fileInfo.isDir = true →
        ∃ k, buildTreeRecursively nestedEnv true k (nestedEnv.join q.1 q.2.fileInfo.name)
          (some (pointerTo q.2)) = some (q.2.nestedElements, none)) :=
  ⟨rfl, children_only_under_directories nestedEnv 4 (newTreeBuilder "." true) nestedTree rfl⟩

theorem built_directories (env : Env) (addFiles : Bool) (fuel : Nat) (fullPath : String)
    (parentElement : Option treeElement) (t : tree)
    (h : buildTreeRecursively env addFiles fuel fullPath parentElement = some (t, none)) :
    ∀ p files f, Reached env fullPath p → env.readDir p = .ok files → f ∈ files →
      f.isDir = true → ∃ q, (p, q) ∈ withPathsIn env.join t fullPath ∧ q.fileInfo = f := by
  refine build_induction env addFiles
    (fun path _ t => ∀ p files f, Reached env path p → env.readDir p = .ok files → f ∈ files →
      f.isDir = true → ∃ q, (p, q) ∈ withPathsIn env.join t path ∧ q.fileInfo = f)
    ?_ fuel fullPath parentElement t h
  intro path par files0 els hread hlev p files f hreach hp hf hdir
  have hnode : ∀ g ∈ files0, g.isDir = true → ∃ el ∈ els, el.fileInfo = g := by
    intro g hg hgd
    have hmem : g ∈ els.map treeElement.fileInfo := by
      rw [hlev.fileInfos]
      exact mem_listed_dir addFiles files0 g hg hgd
    obtain ⟨el, hel, rfl⟩ := List.mem_map.1 hmem
    exact ⟨el, hel, rfl⟩
  cases hreach with
  | here =>
    rw [hread] at hp
    cases hp
    obtain ⟨el, hel, hfi⟩ := hnode f hf hdir
    refine ⟨el, (mem_withPathsIn env.join _ path els).2 ⟨el, hel, ?_⟩, hfi⟩
    rw [withPaths_eq]
    simp
  | inside _ files1 f1 _ hread1 hf1 hdir1 hq =>
    rw [hread] at hread1
    cases hread1
    obtain ⟨el, hel, hfi⟩ := hnode f1 hf1 hdir1
    obtain ⟨g, b, _, hcase⟩ := hlev.mem el hel
    rcases hcase with ⟨hfile, rfl⟩ | ⟨_, nested, rfl, hP⟩
    · simp only [treeElement.fileInfo] at hfi
      rw [hfi, hdir1] at hfile
      cases hfile
    · simp only [treeElement.fileInfo] at hfi
      subst hfi
      obtain ⟨q, hq2, hqf⟩ := hP p files f hq hp hf hdir
      refine ⟨q, (mem_withPathsIn env.join _ path els).2 ⟨_, hel, ?_⟩, hqf⟩
      rw [withPaths_eq]
      exact List.mem_cons_of_mem _ hq2

/-- C14 (directories are never pruned). When `addFiles` is false and `buildTree` returns a
tree without error, every directory entry of the listing of every directory under the root
path is the entry of a node of the tree, placed in that directory; and if the own listing
of that entry holds only files, or nothing, the node has empty `nestedElements` and its
rendering is its own single line. -/
theorem directories_never_pruned (env : Env) (fuel : Nat) (rootPath : String) (t : tree)
    (h : (newTreeBuilder rootPath false).buildTree env fuel = some (t, none)) :
    ∀ p files f, Reached env rootPath p → env.readDir p = .ok files → f ∈ files →
      f.isDir = true →
      ∃ q, (p, q) ∈ withPathsIn env.join t rootPath ∧ q ∈ nodesOf t ∧ q.fileInfo = f ∧
        ∀ own, env.readDir (env.join p f.name) = .ok own → (∀ g ∈ own, g.isDir = false) →
          q.nestedElements = [] ∧ q.String = q.line := by
  intro p files f hreach hp hf hdir
  obtain ⟨q, hq, hqf⟩ := built_directories env false fuel rootPath none t h p files f
    hreach hp hf hdir
  refine ⟨q, hq, ?_, hqf, ?_⟩
  · exact withPathsIn_nodes env.join t rootPath (p, q) hq
  · intro own hown hfiles
    obtain ⟨k, hk⟩ := (built_children env false fuel rootPath none t h (p, q) hq).2
      (by rw [hqf]; exact hdir)
    obtain ⟨own2, hown2, hlev⟩ := built_level env false k _ _ _ hk
    simp only [hqf] at hown2
    rw [hown] at hown2
    cases hown2
    have hempty : listed false own = [] := by
      have hnone : ∀ g, g ∉ listed false own := by
        intro g hg
        obtain ⟨hg1, hg2⟩ := mem_listed_false own g hg
        rw [hfiles g hg1] at hg2
        cases hg2
      exact List.eq_nil_iff_forall_not_mem.2 hnone
    have hnil : q.nestedElements = [] := by
      have := hlev.fileInfos
      rw [hempty] at this
      simpa using this
    refine ⟨hnil, ?_⟩
    rw [String_eq, hnil]
    apply String.ext
    simp

theorem directories_never_pruned_witness :
    (newTreeBuilder "." false).buildTree nestedEnv 4
      = some ([.mk none ⟨"a", true, 4096⟩ true
          [.mk (some nestedA) ⟨"b", true, 4096⟩ false [],
           .mk (some nestedA) ⟨"c", true, 4096⟩ true []]], none) ∧
    Reached nestedEnv "." "./a" ∧
    nestedEnv.readDir "./a" = .ok [⟨"c", true, 4096⟩, ⟨"b", true, 4096⟩] ∧
    ∃ q, q ∈ nodesOf [.mk none ⟨"a", true, 4096⟩ true
          [.mk (some nestedA) ⟨"b", true, 4096⟩ false [],
           .mk (some nestedA) ⟨"c", true, 4096⟩ true []]] ∧
      q.fileInfo = ⟨"b", true, 4096⟩ ∧ q.nestedElements = [] ∧ q.String = q.line := by
  have hreach : Reached nestedEnv "." "./a" :=
    Reached.inside "." [⟨"a", true, 4096⟩] ⟨"a", true, 4096⟩ "./a" rfl (by simp) rfl
      (Reached.here _)
  obtain ⟨q, _, hq, hf, hown⟩ := directories_never_pruned nestedEnv 4 "." _ rfl "./a"
    [⟨"c", true, 4096⟩, ⟨"b", true, 4096⟩] ⟨"b", true, 4096⟩ hreach rfl (by simp) rfl
  have := hown [⟨"x", false, 3⟩] rfl (by simp)
  exact ⟨rfl, hreach, rfl, q, hq, hf, this.1, this.2⟩

/-! ## Independence of the listing order -/

theorem less_isAntisymm : IsAntisymm FileInfo less :=
  ⟨fun _ _ hab hba => absurd hba (lt_asymm hab)⟩

theorem sortSlice_strict (files : List FileInfo)
    (hnodup : (files.map (fun f => f.name)).Nodup) : List.Sorted less (sortSlice files) := by
  haveI := notLess_isTotal
  haveI := notLess_isTrans
  have h1 : List.Pairwise (fun a b => ¬ less b a) (sortSlice files) :=
    List.sorted_insertionSort _ files
  have h2 : List.Pairwise (fun a b : FileInfo => a.name ≠ b.name) (sortSlice files) := by
    have hn : ((sortSlice files).map (fun f => f.name)).Nodup :=
      ((sortSlice_perm files).map _).nodup_iff.2 hnodup
    rw [List.Nodup, List.pairwise_map] at hn
    exact hn
  refine List.Pairwise.imp ?_ (h1.and h2)
  intro a b hab
  obtain ⟨hnot, hne⟩ := hab
  have hd : a.name.data ≠ b.name.data := fun e => hne (String.ext e)
  rcases lt_or_gt_of_ne hd with hlt | hgt
  · exact hlt
  · exact absurd hgt hnot

theorem listed_eq_of_perm (addFiles : Bool) (l1 l2 : List FileInfo) (hperm : l1.Perm l2)
    (hnodup : (l1.map (fun f => f.name)).Nodup) : listed addFiles l1 = listed addFiles l2 := by
  haveI := less_isAntisymm
  have key : ∀ x1 x2 : List FileInfo, x1.Perm x2 → (x1.map (fun f => f.name)).Nodup →
      sortSlice x1 = sortSlice x2 := by
    intro x1 x2 hp hn
    have hn2 : (x2.map (fun f => f.name)).Nodup := (hp.map _).nodup_iff.1 hn
    exact List.eq_of_perm_of_sorted
      (((sortSlice_perm x1).trans hp).trans (sortSlice_perm x2).symm)
      (sortSlice_strict x1 hn) (sortSlice_strict x2 hn2)
  cases addFiles
  · simp only [listed, Bool.not_false, if_true, removeFiles_eq]
    exact key _ _ (hperm.filter _)
      (List.Nodup.sublist ((List.filter_sublist l1).map _) hnodup)
  · simp only [listed, Bool.not_true]
    exact key _ _ hperm hnodup

theorem buildLoop_status
    (r1 r2 : String → Option treeElement → Option (tree × Option GoError))
    (hrec : ∀ p par, status (r1 p par) = status (r2 p par))
    (join : String → String → String) (fullPath : String) (parentElement : Option treeElement)
    (len : Nat) : ∀ (files : List FileInfo) (i : Nat) (resultTree : tree),
    status (buildLoop r1 join fullPath parentElement len files i resultTree)
      = status (buildLoop r2 join fullPath parentElement len files i resultTree) := by
  intro files
  induction files with
  | nil => intro i resultTree; rfl
  | cons f rest ih =>
    intro i resultTree
    rw [buildLoop, buildLoop]
    by_cases hf : f.isDir = true
    · simp only [hf, if_true]
      have h := hrec (join fullPath f.name)
        (some (.mk parentElement f (decide ((i : Int) = (len : Int) - 1)) []))
      cases h1 : r1 (join fullPath f.name)
          (some (.mk parentElement f (decide ((i : Int) = (len : Int) - 1)) [])) with
      | none =>
        cases h2 : r2 (join fullPath f.name)
            (some (.mk parentElement f (decide ((i : Int) = (len : Int) - 1)) [])) with
        | none => rfl
        | some x2 => rw [h1, h2] at h; simp [status] at h
      | some x1 =>
        cases h2 : r2 (join fullPath f.name)
            (some (.mk parentElement f (decide ((i : Int) = (len : Int) - 1)) [])) with
        | none => rw [h1, h2] at h; simp [status] at h
        | some x2 =>
          rw [h1, h2] at h
          obtain ⟨t1, e1⟩ := x1
          obtain ⟨t2, e2⟩ := x2
          simp only [status, Option.map_some', Option.some.injEq, Prod.mk.injEq] at h
          obtain ⟨ht, he⟩ := h
          subst ht
          cases e1 with
          | none =>
            cases e2 with
            | none => exact ih _ _
            | some err2 => simp at he
          | some err1 =>
            cases e2 with
            | none => simp at he
            | some err2 => rfl
    · have hf2 : f.isDir = false := by simpa using hf
      simp only [hf2]
      exact ih _ _

theorem build_status (env1 env2 : Env) (h : SameUpToOrder env1 env2) (addFiles : Bool) :
    ∀ (fuel : Nat) (fullPath : String) (parentElement : Option treeElement),
      status (buildTreeRecursively env1 addFiles fuel fullPath parentElement)
        = status (buildTreeRecursively env2 addFiles fuel fullPath parentElement) := by
  intro fuel
  induction fuel with
  | zero => intro fullPath parentElement; rfl
  | succ fuel ih =>
    intro fullPath parentElement
    have hp := h.2 fullPath
    rw [buildTreeRecursively, buildTreeRecursively]
    cases h1 : env1.readDir fullPath with
    | error err1 =>
      cases h2 : env2.readDir fullPath with
      | error err2 => rfl
      | ok l2 => rw [h1, h2] at hp; exact hp.elim
    | ok l1 =>
      cases h2 : env2.readDir fullPath with
      | error err2 => rw [h1, h2] at hp; exact hp.elim
      | ok l2 =>
        rw [h1, h2] at hp
        have hl := listed_eq_of_perm addFiles l1 l2 hp.1 hp.2
        show status (buildLoop _ env1.join fullPath parentElement (listed addFiles l1).length
            (listed addFiles l1) 0 [])
          = status (buildLoop _ env2.join fullPath parentElement (listed addFiles l2).length
            (listed addFiles l2) 0 [])
        rw [hl, h.1]
        exact buildLoop_status _ _ ih _ _ _ _ _ _ _

/-- C20 (listing-order independence). If two listing capabilities share `filepath.Join`
and, for every path, either both fail or both return listings that are permutations of each
other with pairwise distinct names, then for either value of `addFiles` and every budget
`buildTree` yields the same result under both: it returns under both or under neither, with
the same tree (entries, `isLast` flags, parent pointers, children), with an error under both
or under neither, and with the same rendered output. -/
theorem listing_order_independence (env1 env2 : Env) (h : SameUpToOrder env1 env2)
    (addFiles : Bool) (fuel : Nat) (rootPath : String) :
    status ((newTreeBuilder rootPath addFiles).buildTree env1 fuel)
      = status ((newTreeBuilder rootPath addFiles).buildTree env2 fuel) ∧
    (∀ t e, (newTreeBuilder rootPath addFiles).buildTree env1 fuel = some (t, e) →
      ∃ e2, (newTreeBuilder rootPath addFiles).buildTree env2 fuel = some (t, e2) ∧
        (e = none ↔ e2 = none)) ∧
    ((newTreeBuilder rootPath addFiles).buildTree env1 fuel).map (fun r => tree.String r.1)
      = ((newTreeBuilder rootPath addFiles).buildTree env2 fuel).map
          (fun r => tree.String r.1) := by
  have hs := build_status env1 env2 h addFiles fuel rootPath none
  have hs2 : status ((newTreeBuilder rootPath addFiles).buildTree env1 fuel)
      = status ((newTreeBuilder rootPath addFiles).buildTree env2 fuel) := hs
  refine ⟨hs2, ?_, ?_⟩
  · intro t e ht
    rw [ht] at hs2
    cases h2 : (newTreeBuilder rootPath addFiles).buildTree env2 fuel with
    | none => rw [h2] at hs2; simp [status] at hs2
    | some x2 =>
      obtain ⟨t2, e2⟩ := x2
      rw [h2] at hs2
      simp only [status, Option.map_some', Option.some.injEq, Prod.mk.injEq] at hs2
      obtain ⟨ht2, he⟩ := hs2
      subst ht2
      refine ⟨e2, rfl, ?_⟩
      cases e <;> cases e2 <;> simp at he ⊢
  · have := congrArg (Option.map (fun x : tree × Bool => tree.String x.1)) hs2
    simpa [status, Option.map_map, Function.comp] using this

theorem listing_order_independence_witness :
    SameUpToOrder nestedEnv nestedEnvSwapped ∧
    status ((newTreeBuilder "." true).buildTree nestedEnv 4)
      = status ((newTreeBuilder "." true).buildTree nestedEnvSwapped 4) ∧
    ((newTreeBuilder "." true).buildTree nestedEnvSwapped 4).map (fun r => tree.String r.1)
      = some "└───a\n\t├───b\n│\t\t└───x (3b)\n\t└───c\n" := by
  have hsame : SameUpToOrder nestedEnv nestedEnvSwapped := by
    refine ⟨rfl, ?_⟩
    intro p
    simp only [nestedEnv, nestedEnvSwapped]
    split_ifs
    · exact ⟨List.Perm.refl _, by decide⟩
    · exact ⟨List.Perm.swap _ _ _, by decide⟩
    · exact ⟨List.Perm.refl _, by decide⟩
    · exact ⟨List.Perm.refl _, by decide⟩
    · trivial
  have h := listing_order_independence nestedEnv nestedEnvSwapped hsame true 4 "."
  exact ⟨hsame, h.1, by rw [← h.2.2]; decide⟩

end HwTree
